import Mathlib

/-!
Shallow embedding of the order-book analytics engine of the torn-market-analyzer
repository (src/tma/market_enrichment.py) and proofs about it.

Modeling conventions:
* Python floats (prices, quantities, shares) are modeled as rationals (ℚ).
* A float NaN result ("no data") is modeled as `none`; a missing or
  non-numeric input cell is `none` as well (both are skipped identically by
  the normalizer).
* A pandas frame is modeled as a list of records in row order; `groupby` over
  item ids is modeled by iterating the sorted distinct ids and filtering.
* Places where numpy/pandas would raise (indexing an empty selection) are
  modeled as `none`.
-/

namespace TMA

/-- One valid sell listing of an item: the two numeric columns of the long
frame that the statistics stages read. -/
structure Listing where
  price : ℚ
  quantity : ℚ
  deriving Repr, DecidableEq

/-- One input row of the wide frame: the item key together with the K
parallel (price_i, amount_i) slots.  A missing (NaN) or non-numeric cell is
`none`.  The pass-through metadata columns are not modeled. -/
structure WideRow where
  item_id : ℕ
  slots : List (Option ℚ × Option ℚ)

/-- One row of the long frame produced by wide_to_long. -/
structure LongRow where
  item_id : ℕ
  listing_rank : ℕ
  price : ℚ
  quantity : ℚ
  deriving Repr, DecidableEq

/-- Embeds the slot loop of wide_to_long (market_enrichment.py lines 39-59):
slot i is kept iff both cells are present and numeric and the amount is
strictly positive.  The price value itself is not inspected. -/
def slots_to_long (id : ℕ) : ℕ → List (Option ℚ × Option ℚ) → List LongRow
  | _, [] => []
  | i, (op, oq) :: rest =>
    match op, oq with
    | some p, some q =>
      if 0 < q then ⟨id, i, p, q⟩ :: slots_to_long id (i + 1) rest
      else slots_to_long id (i + 1) rest
    | _, _ => slots_to_long id (i + 1) rest

theorem slots_to_long_nn (id i : ℕ) (oq : Option ℚ)
    (rest : List (Option ℚ × Option ℚ)) :
    slots_to_long id i ((none, oq) :: rest) = slots_to_long id (i + 1) rest := rfl

theorem slots_to_long_sn (id i : ℕ) (p : ℚ) (rest : List (Option ℚ × Option ℚ)) :
    slots_to_long id i ((some p, none) :: rest) = slots_to_long id (i + 1) rest := rfl

theorem slots_to_long_ss (id i : ℕ) (p q : ℚ) (rest : List (Option ℚ × Option ℚ)) :
    slots_to_long id i ((some p, some q) :: rest) =
      if 0 < q then ⟨id, i, p, q⟩ :: slots_to_long id (i + 1) rest
      else slots_to_long id (i + 1) rest := rfl

/-- Embeds wide_to_long (lines 22-75): every row's slots, ranks starting
at 1. -/
def wide_to_long (rows : List WideRow) : List LongRow :=
  rows.flatMap fun r => slots_to_long r.item_id 1 r.slots

/-- Stable ascending sort by a rational key.  Models sort_values / argsort;
every downstream consumer is invariant under the order of key ties. -/
def sortOn {α : Type} (f : α → ℚ) (l : List α) : List α :=
  List.insertionSort (fun x y => f x ≤ f y) l

/-- Ascending sort of a list of rationals. -/
def sortQ (l : List ℚ) : List ℚ := sortOn id l

/-- Embeds the selection v[cum_w >= target][0]: the value of the first pair,
in list order, whose running weight total reaches the target; `none` when no
pair qualifies (numpy raises an IndexError there). -/
def pickCum (target : ℚ) : ℚ → List (ℚ × ℚ) → Option ℚ
  | _, [] => none
  | acc, vw :: rest =>
    if target ≤ acc + vw.2 then some vw.1 else pickCum target (acc + vw.2) rest

/-- Total weight of a list of (value, weight) pairs. -/
def sumSnd (l : List (ℚ × ℚ)) : ℚ := (l.map Prod.snd).sum

/-- Sort (value, weight) pairs by ascending value. -/
def sortPairs (l : List (ℚ × ℚ)) : List (ℚ × ℚ) := sortOn Prod.fst l

/-- Embeds _weighted_median (lines 82-88): the value at the first position,
after sorting by value, where the cumulative weight reaches half the total
weight. -/
def weighted_median (l : List (ℚ × ℚ)) : Option ℚ :=
  pickCum (sumSnd l / 2) 0 (sortPairs l)

/-- Models np.min of a nonempty array. -/
def minQ : List ℚ → Option ℚ
  | [] => none
  | x :: xs => some (xs.foldl min x)

/-- Models np.max of a nonempty array. -/
def maxQ : List ℚ → Option ℚ
  | [] => none
  | x :: xs => some (xs.foldl max x)

/-- Embeds _weighted_quantile (lines 91-104). -/
def weighted_quantile (l : List (ℚ × ℚ)) (q : ℚ) : Option ℚ :=
  if l = [] then none
  else if q ≤ 0 then minQ (l.map Prod.fst)
  else if 1 ≤ q then maxQ (l.map Prod.fst)
  else pickCum (q * sumSnd l) 0 (sortPairs l)

/-- Models np.median: the middle element of the sorted array for odd length,
the mean of the two middle elements for even length. -/
def npMedian (l : List ℚ) : Option ℚ :=
  if l = [] then none
  else if l.length % 2 = 1 then some ((sortQ l).getD (l.length / 2) 0)
  else some (((sortQ l).getD (l.length / 2 - 1) 0 + (sortQ l).getD (l.length / 2) 0) / 2)

/-- Linear interpolation at fractional position h into a sorted array, with
indices clamped to the array. -/
def interpAt (ps : List ℚ) (h : ℚ) : ℚ :=
  ps.getD (min ⌊h⌋.toNat (ps.length - 1)) 0 +
    (h - (⌊h⌋.toNat : ℚ)) *
      (ps.getD (min (⌊h⌋.toNat + 1) (ps.length - 1)) 0 -
        ps.getD (min ⌊h⌋.toNat (ps.length - 1)) 0)

/-- Models np.quantile with its default linear interpolation, for
0 ≤ q ≤ 1 (the engine only uses q of 0.25, 0.5 and 0.75). -/
def npQuantile (l : List ℚ) (q : ℚ) : Option ℚ :=
  if l = [] then none
  else some (interpAt (sortQ l) (q * ((l.length : ℚ) - 1)))

/-- The (price, quantity) pairs of a book. -/
def pairsOf (book : List Listing) : List (ℚ × ℚ) :=
  book.map fun x => (x.price, x.quantity)

/-- The price column of a book. -/
def pricesOf (book : List Listing) : List ℚ := book.map Listing.price

/-- The total quantity of a book (qty.sum()). -/
def totalQty (book : List Listing) : ℚ := (book.map Listing.quantity).sum

/-- Embeds the median of add_price_stats_for_item (lines 128-134):
unweighted over prices when the total quantity is not positive, otherwise
the quantity-weighted median. -/
def price_median (book : List Listing) : Option ℚ :=
  if totalQty book ≤ 0 then npMedian (pricesOf book)
  else weighted_median (pairsOf book)

/-- Embeds qty.astype(int).clip(min=1): the float quantity truncated toward
zero, clamped below at 1. -/
def repCount (q : ℚ) : ℕ := max ⌊q⌋.toNat 1

/-- Embeds np.repeat(prices, counts): each value repeated its count times. -/
def expand : List (ℚ × ℚ) → List ℚ
  | [] => []
  | vw :: rest => List.replicate (repCount vw.2) vw.1 ++ expand rest

/-- Embeds the MAD of add_price_stats_for_item (lines 128-141): in the
weighted branch, the np.median of the absolute deviations of the literally
expanded price multiset from the weighted median. -/
def price_mad (book : List Listing) : Option ℚ :=
  match price_median book with
  | none => none
  | some m =>
    if totalQty book ≤ 0 then npMedian ((pricesOf book).map fun p => |p - m|)
    else
      let e := expand (pairsOf book)
      if 0 < e.length then npMedian (e.map fun p => |p - m|) else some 0

/-- Embeds the robust_z column (lines 151-154):
0.6745 * (price - median) / MAD when MAD is positive, else 0. -/
def robust_z (book : List Listing) (p : ℚ) : ℚ :=
  match price_median book, price_mad book with
  | some m, some mad => if 0 < mad then 6745 / 10000 * (p - m) / mad else 0
  | _, _ => 0

/-- Embeds the cumulative-quantity scan of add_depth_features_for_item
(lines 161-170), pairing each listing with its running quantity total. -/
def withCum : ℚ → List Listing → List (Listing × ℚ)
  | _, [] => []
  | acc, x :: xs => (x, acc + x.quantity) :: withCum (acc + x.quantity) xs

/-- Embeds the per-level quantity (groupby price sum, lines 192-196). -/
def level_qty (book : List Listing) (p : ℚ) : ℚ :=
  ((book.filter fun x => x.price == p).map Listing.quantity).sum

/-- Embeds the level_share column (lines 197-203). -/
def level_share (book : List Listing) (p : ℚ) : ℚ :=
  if 0 < totalQty book then level_qty book p / totalQty book else 0

/-- Embeds max_level_share of mark_suspected_anchors_for_item (line 206):
the maximum of the merged per-listing level_share column, 0 for an empty
frame. -/
def max_level_share (book : List Listing) : ℚ :=
  (maxQ (book.map fun x => level_share book x.price)).getD 0

/-- Embeds the full-book regime test (lines 209-212): exclusive iff the
total quantity is at most 200 or some price level holds at least half of
it. -/
def exclusive_mode_full (book : List Listing) : Bool :=
  decide (totalQty book ≤ 200) || decide (1 / 2 ≤ max_level_share book)

/-- Embeds the per-listing anchor rule (lines 214-224), given the listing's
cumulative-quantity share pct. -/
def anchor_flag (book : List Listing) (x : Listing) (pct : ℚ) : Bool :=
  let m := (price_median book).getD 0
  let shallow := decide (pct < 2 / 100) || decide (1 - 2 / 100 < pct)
  if exclusive_mode_full book && decide (0 < m) then
    decide (m * 10 < x.price) && (shallow || decide (x.quantity ≤ 50))
  else
    decide (5 < |robust_z book x.price|) && shallow && decide (x.quantity < 50)

/-- One row of the enriched per-item frame: the listing plus the derived
columns the later stages read. -/
structure ERow where
  price : ℚ
  quantity : ℚ
  robust_z : ℚ
  cum_qty_pct : ℚ
  is_suspected_anchor : Bool
  deriving Repr, DecidableEq

/-- Embeds enrich_item_orders (lines 229-233): statistics, depth features
and anchor flags for one item's listings (rows come out sorted by price, as
add_depth_features_for_item leaves them).  The source raises on an empty
frame; the pipeline only applies this to nonempty groups. -/
def enrich_item_orders (book : List Listing) : List ERow :=
  let t := totalQty book
  (withCum 0 (sortOn Listing.price book)).map fun xc =>
    let pct := if 0 < t then xc.2 / t else 0
    ⟨xc.1.price, xc.1.quantity, robust_z book xc.1.price, pct,
      anchor_flag book xc.1 pct⟩

/-- Output record of compute_price_suggestions_for_item restricted to the
engine fields; a float NaN price is `none`.  The pass-through metadata
fields are not modeled. -/
structure Suggestion where
  item_id : ℕ
  num_listings : ℕ
  num_suspected_anchors : ℕ
  fast_sell_price : Option ℚ
  fair_price : Option ℚ
  greedy_price : Option ℚ
  clean_median_price : Option ℚ
  clean_q1_price : Option ℚ
  clean_q3_price : Option ℚ
  deriving Repr, DecidableEq

/-- Embeds the anchor-removal step (lines 253-259): drop flagged rows, but
fall back to the whole frame when that would leave nothing. -/
def cleanOf (rows : List ERow) : List ERow :=
  let c := rows.filter fun r => !r.is_suspected_anchor
  if c = [] then rows else c

/-- The (price, quantity) pairs of enriched rows. -/
def pairsOfE (rows : List ERow) : List (ℚ × ℚ) :=
  rows.map fun r => (r.price, r.quantity)

/-- Total quantity of enriched rows. -/
def totalQtyE (rows : List ERow) : ℚ := (rows.map ERow.quantity).sum

/-- Embeds the per-level quantities of the clean set and their maximum
(groupby price sum and level_qty.max(), lines 284-291). -/
def maxLevelQtyE (rows : List ERow) : ℚ :=
  (maxQ ((rows.map ERow.price).dedup.map fun p =>
    ((rows.filter fun r => r.price == p).map ERow.quantity).sum)).getD 0

/-- Embeds the clean-set regime test (lines 284-296). -/
def exclusive_mode_clean (rows : List ERow) : Bool :=
  let total := totalQtyE rows
  let maxShare := if 0 < total then maxLevelQtyE rows / total else 0
  decide (total ≤ 200) || decide (1 / 2 ≤ maxShare)

/-- Embeds _weighted_price_quantile_from_df (lines 107-113).  The source
sorts the frame by price before handing the columns to _weighted_quantile,
which argsorts them again; the composite result is that of
weighted_quantile on the frame's pairs. -/
def weighted_price_quantile_from_df (rows : List ERow) (q : ℚ) : Option ℚ :=
  if rows = [] then none else weighted_quantile (pairsOfE rows) q

/-- Embeds _unweighted_price_quantile_from_df (lines 116-120). -/
def unweighted_price_quantile_from_df (rows : List ERow) (q : ℚ) : Option ℚ :=
  npQuantile (rows.map ERow.price) q

/-- Embeds the raw fast-sell selection (lines 308-329) on the clean set. -/
def fast_sell_raw (clean : List ERow) : ℚ :=
  let sorted := sortOn ERow.price clean
  let prices := sorted.map ERow.price
  if exclusive_mode_clean clean then
    prices.getD (min 2 (sorted.length - 1)) 0
  else if totalQtyE clean / (clean.length : ℚ) ≤ 2 then
    prices.getD (min 10 sorted.length - 1) 0
  else
    match pickCum (min 100 (totalQtyE clean)) 0 (pairsOfE sorted) with
    | some p => p
    | none => prices.getLast?.getD 0

/-- Embeds compute_price_suggestions_for_item (lines 240-357).  On an empty
frame the source raises at the very first field access (line 241); this is
modeled as `none`.  The inner empty-clean sentinel branch (lines 261-277) is
embedded although it is unreachable, because the clean set of a nonempty
frame is never empty. -/
def compute_price_suggestions_for_item (id : ℕ) (rows : List ERow) :
    Option Suggestion :=
  match rows with
  | [] => none
  | _ :: _ =>
    let clean := cleanOf rows
    let nA := (rows.filter fun r => r.is_suspected_anchor).length
    if clean = [] then
      some ⟨id, rows.length, nA, none, none, none, none, none, none⟩
    else
      let excl := exclusive_mode_clean clean
      let fair := if excl then unweighted_price_quantile_from_df clean (1 / 2)
                  else weighted_price_quantile_from_df clean (1 / 2)
      let q1 := if excl then unweighted_price_quantile_from_df clean (1 / 4)
                else weighted_price_quantile_from_df clean (1 / 4)
      let q3 := if excl then unweighted_price_quantile_from_df clean (3 / 4)
                else weighted_price_quantile_from_df clean (3 / 4)
      let fast : ℚ := max ((⌊fast_sell_raw clean⌋ - 1 : ℤ) : ℚ) 0
      some ⟨id, rows.length, nA, some fast, fair, q3, fair, q1, q3⟩

/-- Insertion of an id into a sorted duplicate-free list of ids. -/
def insertId (x : ℕ) : List ℕ → List ℕ
  | [] => [x]
  | y :: ys =>
    if x < y then x :: y :: ys
    else if x = y then y :: ys
    else y :: insertId x ys

/-- The sorted distinct item ids of a long frame (groupby iterates groups in
ascending key order). -/
def item_ids (rows : List LongRow) : List ℕ :=
  (rows.map LongRow.item_id).foldr insertId []

/-- The listings of one item, in long-frame order. -/
def bookOf (rows : List LongRow) (id : ℕ) : List Listing :=
  (rows.filter fun r => r.item_id == id).map fun r => ⟨r.price, r.quantity⟩

/-- Embeds enrich_all_items followed by build_summary_from_enriched
(lines 364-391): per item id, enrich that item's book and compute its
suggestion record. -/
def build_summary (rows : List LongRow) : List Suggestion :=
  (item_ids rows).filterMap fun id =>
    compute_price_suggestions_for_item id (enrich_item_orders (bookOf rows id))

/-- The composite pipeline as invoked by the app (streamlit_app.py lines
189-196): wide_to_long, then enrich_all_items, then
build_summary_from_enriched. -/
def pipeline_summaries (wide : List WideRow) : List Suggestion :=
  build_summary (wide_to_long wide)

/-- Stated from the spec for the C3 comparison: the dispersion estimate
computed as the quantity-weighted median (first value, by ascending
deviation, whose cumulative weight reaches half the total) of the absolute
deviations of the prices from the weighted median, without literal
expansion. -/
def mad_by_weighted_median_spec (l : List (ℚ × ℚ)) : Option ℚ :=
  match weighted_median l with
  | none => none
  | some m => weighted_median (l.map fun vw => (|vw.1 - m|, vw.2))

/-- Stated from the spec for the C5 comparison: the quantity share of one
exact price level of a book given as (price, quantity) pairs. -/
def spec_level_share (l : List (ℚ × ℚ)) (p : ℚ) : ℚ :=
  if 0 < sumSnd l then ((l.filter fun vw => vw.1 == p).map Prod.snd).sum / sumSnd l
  else 0

/-- Stated from the spec for the C5 comparison: the maximum price-level
quantity share, a maximum over the distinct price levels of the book. -/
def spec_max_level_share (l : List (ℚ × ℚ)) : ℚ :=
  (maxQ ((l.map Prod.fst).dedup.map (spec_level_share l))).getD 0

/-! ### Generic lemmas about the sorting and selection primitives -/

theorem sortOn_perm {α : Type} (f : α → ℚ) (l : List α) :
    List.Perm (sortOn f l) l :=
  List.perm_insertionSort _ l

theorem sortOn_sorted {α : Type} (f : α → ℚ) (l : List α) :
    (sortOn f l).Pairwise fun x y => f x ≤ f y := by
  haveI : IsTotal α fun x y => f x ≤ f y := ⟨fun x y => le_total (f x) (f y)⟩
  haveI : IsTrans α fun x y => f x ≤ f y := ⟨fun _ _ _ h h2 => le_trans h h2⟩
  exact List.sorted_insertionSort _ l

theorem sortQ_sorted (l : List ℚ) : (sortQ l).Pairwise (· ≤ ·) :=
  sortOn_sorted id l

theorem sortQ_perm (l : List ℚ) : List.Perm (sortQ l) l :=
  sortOn_perm id l

theorem sortQ_eq_of_sorted {l : List ℚ} (h : l.Pairwise (· ≤ ·)) : sortQ l = l :=
  List.eq_of_perm_of_sorted (sortQ_perm l) (sortQ_sorted l) h

theorem sortQ_congr_perm {l m : List ℚ} (h : List.Perm l m) : sortQ l = sortQ m :=
  List.eq_of_perm_of_sorted ((sortQ_perm l).trans (h.trans (sortQ_perm m).symm))
    (sortQ_sorted l) (sortQ_sorted m)

theorem map_sortOn {α : Type} (f : α → ℚ) (l : List α) :
    (sortOn f l).map f = sortQ (l.map f) := by
  refine List.eq_of_perm_of_sorted (((sortOn_perm f l).map f).trans (sortQ_perm _).symm)
    ?_ (sortQ_sorted _)
  exact List.Pairwise.map f (fun _ _ h => h) (sortOn_sorted f l)

theorem sortOn_length {α : Type} (f : α → ℚ) (l : List α) :
    (sortOn f l).length = l.length :=
  (sortOn_perm f l).length_eq

theorem sortOn_ne_nil {α : Type} (f : α → ℚ) {l : List α} (h : l ≠ []) :
    sortOn f l ≠ [] := by
  intro hx
  apply h
  have hlen := sortOn_length f l
  rw [hx] at hlen
  exact List.length_eq_zero.mp hlen.symm

theorem getD_mem {l : List ℚ} {k : ℕ} (h : k < l.length) : l.getD k 0 ∈ l := by
  rw [List.getD_eq_getElem l 0 h]
  exact List.getElem_mem h

theorem sorted_getD_mono {l : List ℚ} (hl : l.Pairwise (· ≤ ·)) {i j : ℕ}
    (hij : i ≤ j) (hj : j < l.length) : l.getD i 0 ≤ l.getD j 0 := by
  rw [List.getD_eq_getElem l 0 (lt_of_le_of_lt hij hj), List.getD_eq_getElem l 0 hj]
  exact List.Sorted.rel_get_of_le hl hij

theorem foldl_min_mem (t : List ℚ) : ∀ a, t.foldl min a ∈ a :: t := by
  induction t with
  | nil => intro a; simp
  | cons b t ih =>
    intro a
    simp only [List.foldl_cons]
    rcases List.mem_cons.mp (ih (min a b)) with he | ht
    · rw [he]
      rcases min_choice a b with hc | hc <;> rw [hc] <;> simp
    · simp [ht]

theorem foldl_min_le (t : List ℚ) : ∀ a, ∀ x ∈ a :: t, t.foldl min a ≤ x := by
  induction t with
  | nil =>
    intro a x hx
    rcases List.mem_cons.mp hx with rfl | h
    · exact le_refl x
    · simp at h
  | cons b t ih =>
    intro a x hx
    simp only [List.foldl_cons]
    rcases List.mem_cons.mp hx with he | hx2
    · rw [he]
      exact le_trans (ih (min a b) _ (List.mem_cons_self _ _)) (min_le_left a b)
    · rcases List.mem_cons.mp hx2 with he | hx3
      · rw [he]
        exact le_trans (ih (min a b) _ (List.mem_cons_self _ _)) (min_le_right a b)
      · exact ih (min a b) x (List.mem_cons_of_mem _ hx3)

theorem foldl_max_mem (t : List ℚ) : ∀ a, t.foldl max a ∈ a :: t := by
  induction t with
  | nil => intro a; simp
  | cons b t ih =>
    intro a
    simp only [List.foldl_cons]
    rcases List.mem_cons.mp (ih (max a b)) with he | ht
    · rw [he]
      rcases max_choice a b with hc | hc <;> rw [hc] <;> simp
    · simp [ht]

theorem foldl_max_le (t : List ℚ) : ∀ a, ∀ x ∈ a :: t, x ≤ t.foldl max a := by
  induction t with
  | nil =>
    intro a x hx
    rcases List.mem_cons.mp hx with rfl | h
    · exact le_refl x
    · simp at h
  | cons b t ih =>
    intro a x hx
    simp only [List.foldl_cons]
    rcases List.mem_cons.mp hx with he | hx2
    · rw [he]
      exact le_trans (le_max_left a b) (ih (max a b) _ (List.mem_cons_self _ _))
    · rcases List.mem_cons.mp hx2 with he | hx3
      · rw [he]
        exact le_trans (le_max_right a b) (ih (max a b) _ (List.mem_cons_self _ _))
      · exact ih (max a b) x (List.mem_cons_of_mem _ hx3)

theorem minQ_spec {l : List ℚ} {m : ℚ} (h : minQ l = some m) :
    m ∈ l ∧ ∀ x ∈ l, m ≤ x := by
  cases l with
  | nil => simp [minQ] at h
  | cons a t =>
    simp only [minQ, Option.some_inj] at h
    subst h
    exact ⟨foldl_min_mem t a, foldl_min_le t a⟩

theorem maxQ_spec {l : List ℚ} {m : ℚ} (h : maxQ l = some m) :
    m ∈ l ∧ ∀ x ∈ l, x ≤ m := by
  cases l with
  | nil => simp [maxQ] at h
  | cons a t =>
    simp only [maxQ, Option.some_inj] at h
    subst h
    exact ⟨foldl_max_mem t a, foldl_max_le t a⟩

theorem maxQ_isSome {l : List ℚ} (h : l ≠ []) : ∃ m, maxQ l = some m := by
  cases l with
  | nil => exact absurd rfl h
  | cons a t => exact ⟨t.foldl max a, rfl⟩

theorem minQ_isSome {l : List ℚ} (h : l ≠ []) : ∃ m, minQ l = some m := by
  cases l with
  | nil => exact absurd rfl h
  | cons a t => exact ⟨t.foldl min a, rfl⟩

theorem maxQ_eq_of_mem_iff {l m : List ℚ} (hl : l ≠ []) (hm : m ≠ [])
    (h : ∀ x, x ∈ l ↔ x ∈ m) : maxQ l = maxQ m := by
  obtain ⟨a, ha⟩ := maxQ_isSome hl
  obtain ⟨b, hb⟩ := maxQ_isSome hm
  obtain ⟨ha1, ha2⟩ := maxQ_spec ha
  obtain ⟨hb1, hb2⟩ := maxQ_spec hb
  rw [ha, hb, Option.some_inj]
  exact le_antisymm (hb2 a ((h a).mp ha1)) (ha2 b ((h b).mpr hb1))

theorem sumSnd_perm {l m : List (ℚ × ℚ)} (h : List.Perm l m) : sumSnd l = sumSnd m :=
  (h.map Prod.snd).sum_eq

theorem sumSnd_sortPairs (l : List (ℚ × ℚ)) : sumSnd (sortPairs l) = sumSnd l :=
  sumSnd_perm (sortOn_perm Prod.fst l)

/-- Running weight total of the first n pairs. -/
def cumTo (l : List (ℚ × ℚ)) (n : ℕ) : ℚ := sumSnd (l.take n)

theorem pickCum_mem (t : ℚ) :
    ∀ (l : List (ℚ × ℚ)) (acc v : ℚ), pickCum t acc l = some v → v ∈ l.map Prod.fst := by
  intro l
  induction l with
  | nil => intro acc v h; simp [pickCum] at h
  | cons a rest ih =>
    intro acc v h
    rw [pickCum] at h
    by_cases hc : t ≤ acc + a.2
    · rw [if_pos hc] at h
      simp [← Option.some_inj.mp h]
    · rw [if_neg hc] at h
      simp only [List.map_cons, List.mem_cons]
      exact Or.inr (ih _ v h)

theorem pickCum_isSome (t : ℚ) :
    ∀ (l : List (ℚ × ℚ)) (acc : ℚ), l ≠ [] → t ≤ acc + sumSnd l →
      ∃ v, pickCum t acc l = some v := by
  intro l
  induction l with
  | nil => intro acc h; exact absurd rfl h
  | cons a rest ih =>
    intro acc _ hle
    by_cases hc : t ≤ acc + a.2
    · exact ⟨a.1, by rw [pickCum, if_pos hc]⟩
    · have hs : sumSnd (a :: rest) = a.2 + sumSnd rest := by simp [sumSnd]
      have hle2 : t ≤ acc + a.2 + sumSnd rest := by rw [hs] at hle; linarith
      have hne2 : rest ≠ [] := by
        intro hr
        rw [hr] at hle2
        simp only [sumSnd, List.map_nil, List.sum_nil, add_zero] at hle2
        exact hc hle2
      obtain ⟨v, hv⟩ := ih (acc + a.2) hne2 hle2
      exact ⟨v, by rw [pickCum, if_neg hc]; exact hv⟩

theorem pickCum_first (t : ℚ) :
    ∀ (l : List (ℚ × ℚ)) (acc v : ℚ), pickCum t acc l = some v →
      ∃ i vw, l.get? i = some vw ∧ vw.1 = v ∧ t ≤ acc + cumTo l (i + 1) ∧
        ∀ j < i, acc + cumTo l (j + 1) < t := by
  intro l
  induction l with
  | nil => intro acc v h; simp [pickCum] at h
  | cons a rest ih =>
    intro acc v h
    rw [pickCum] at h
    by_cases hc : t ≤ acc + a.2
    · rw [if_pos hc] at h
      refine ⟨0, a, rfl, Option.some_inj.mp h, ?_, by omega⟩
      have h1 : cumTo (a :: rest) 1 = a.2 := by simp [cumTo, sumSnd]
      rw [h1]
      exact hc
    · rw [if_neg hc] at h
      obtain ⟨i, vw, hg, hv, hle, hfirst⟩ := ih (acc + a.2) v h
      have hcum : ∀ k, cumTo (a :: rest) (k + 1) = a.2 + cumTo rest k := by
        intro k
        simp [cumTo, sumSnd]
      refine ⟨i + 1, vw, by simpa using hg, hv, ?_, ?_⟩
      · rw [hcum (i + 1)]
        linarith
      · intro j hj
        cases j with
        | zero =>
          rw [hcum 0]
          simp only [cumTo, List.take_zero, sumSnd, List.map_nil, List.sum_nil, add_zero]
          linarith [lt_of_not_le hc]
        | succ j2 =>
          rw [hcum (j2 + 1)]
          have := hfirst j2 (by omega)
          linarith

theorem pickCum_mono {t1 t2 : ℚ} (h12 : t1 ≤ t2) :
    ∀ (l : List (ℚ × ℚ)) (acc v1 v2 : ℚ),
      l.Pairwise (fun x y => x.1 ≤ y.1) →
      pickCum t1 acc l = some v1 → pickCum t2 acc l = some v2 → v1 ≤ v2 := by
  intro l
  induction l with
  | nil => intro acc v1 v2 _ h1; simp [pickCum] at h1
  | cons a rest ih =>
    intro acc v1 v2 hsort h1 h2
    rw [pickCum] at h1 h2
    by_cases hc2 : t2 ≤ acc + a.2
    · rw [if_pos (le_trans h12 hc2)] at h1
      rw [if_pos hc2] at h2
      rw [← Option.some_inj.mp h1, ← Option.some_inj.mp h2]
    · rw [if_neg hc2] at h2
      by_cases hc1 : t1 ≤ acc + a.2
      · rw [if_pos hc1] at h1
        rw [← Option.some_inj.mp h1]
        have hm := pickCum_mem t2 rest (acc + a.2) v2 h2
        obtain ⟨b, hb, hbv⟩ := List.mem_map.mp hm
        rw [← hbv]
        exact (List.pairwise_cons.mp hsort).1 b hb
      · rw [if_neg hc1] at h1
        exact ih (acc + a.2) v1 v2 (List.pairwise_cons.mp hsort).2 h1 h2

theorem weighted_median_eq_quantile_half (l : List (ℚ × ℚ)) :
    weighted_median l = weighted_quantile l (1 / 2) := by
  by_cases hl : l = []
  · subst hl
    simp [weighted_median, weighted_quantile, sortPairs, sortOn, pickCum]
  · unfold weighted_median weighted_quantile
    rw [if_neg hl, if_neg (by norm_num), if_neg (by norm_num)]
    have : sumSnd l / 2 = 1 / 2 * sumSnd l := by ring
    rw [this]

theorem npMedian_isSome {l : List ℚ} (h : l ≠ []) : ∃ m, npMedian l = some m := by
  unfold npMedian
  rw [if_neg h]
  by_cases h2 : l.length % 2 = 1 <;> simp [h2]

theorem npMedian_congr_perm {l m : List ℚ} (h : List.Perm l m) :
    npMedian l = npMedian m := by
  by_cases hl : l = []
  · have hm : m = [] := by
      rw [hl] at h
      exact (h.symm).eq_nil
    rw [hl, hm]
  · have hm : m ≠ [] := by
      intro hx
      rw [hx] at h
      exact hl h.eq_nil
    unfold npMedian
    rw [if_neg hl, if_neg hm, sortQ_congr_perm h, h.length_eq]

theorem npMedian_pos {l : List ℚ} (hpos : ∀ x ∈ l, 0 < x) {m : ℚ}
    (h : npMedian l = some m) : 0 < m := by
  unfold npMedian at h
  by_cases hnil : l = []
  · rw [if_pos hnil] at h
    exact absurd h (by simp)
  · rw [if_neg hnil] at h
    have hlen : 0 < l.length := List.length_pos.mpr hnil
    have hslen : (sortQ l).length = l.length := (sortQ_perm l).length_eq
    have hmem : ∀ k, k < l.length → 0 < (sortQ l).getD k 0 := by
      intro k hk
      exact hpos _ ((sortQ_perm l).mem_iff.mp (getD_mem (by rw [hslen]; exact hk)))
    have hhalf : l.length / 2 < l.length := Nat.div_lt_self hlen one_lt_two
    by_cases hodd : l.length % 2 = 1
    · rw [if_pos hodd, Option.some_inj] at h
      rw [← h]
      exact hmem _ hhalf
    · rw [if_neg hodd, Option.some_inj] at h
      rw [← h]
      have h1 := hmem _ hhalf
      have h2 := hmem (l.length / 2 - 1) (lt_of_le_of_lt (Nat.sub_le _ _) hhalf)
      positivity

theorem interpAt_le (ps : List ℚ) (hs : ps.Pairwise (· ≤ ·)) (hps : ps ≠ [])
    {a b : ℚ} (ha : 0 ≤ a) (hab : a ≤ b) (hb : b ≤ (ps.length : ℚ) - 1) :
    interpAt ps a ≤ interpAt ps b := by
  have hn : 1 ≤ ps.length := List.length_pos.mpr hps
  have hfa : (0 : ℤ) ≤ ⌊a⌋ := Int.floor_nonneg.mpr ha
  have hfb : (0 : ℤ) ≤ ⌊b⌋ := Int.floor_nonneg.mpr (le_trans ha hab)
  have hcast : ((ps.length - 1 : ℕ) : ℚ) = (ps.length : ℚ) - 1 := by
    rw [Nat.cast_sub hn, Nat.cast_one]
  have hbound : ∀ x : ℚ, 0 ≤ x → x ≤ (ps.length : ℚ) - 1 → ⌊x⌋.toNat ≤ ps.length - 1 := by
    intro x _ hx1
    have h1 : ⌊x⌋ ≤ ⌊((ps.length - 1 : ℕ) : ℚ)⌋ := by
      apply Int.floor_le_floor
      rw [hcast]
      exact hx1
    rw [Int.floor_natCast] at h1
    omega
  have hga : ⌊a⌋.toNat ≤ ps.length - 1 := hbound a ha (le_trans hab hb)
  have hgb : ⌊b⌋.toNat ≤ ps.length - 1 := hbound b (le_trans ha hab) hb
  have htn : ∀ z : ℤ, 0 ≤ z → ((z.toNat : ℕ) : ℚ) = (z : ℚ) := by
    intro z hz
    exact_mod_cast congrArg (fun w : ℤ => (w : ℚ)) (Int.toNat_of_nonneg hz)
  have hgag : (⌊a⌋.toNat : ℚ) ≤ a := by
    rw [htn _ hfa]
    exact Int.floor_le a
  have hgbg : (⌊b⌋.toNat : ℚ) ≤ b := by
    rw [htn _ hfb]
    exact Int.floor_le b
  have hgal : a < (⌊a⌋.toNat : ℚ) + 1 := by
    rw [htn _ hfa]
    exact Int.lt_floor_add_one a
  have hgbl : b < (⌊b⌋.toNat : ℚ) + 1 := by
    rw [htn _ hfb]
    exact Int.lt_floor_add_one b
  have hmono : ∀ i j : ℕ, i ≤ j → j ≤ ps.length - 1 → ps.getD i 0 ≤ ps.getD j 0 := by
    intro i j hij hj
    exact sorted_getD_mono hs hij (by omega)
  have hhiA : ps.getD ⌊a⌋.toNat 0 ≤ ps.getD (min (⌊a⌋.toNat + 1) (ps.length - 1)) 0 :=
    hmono _ _ (le_min (Nat.le_succ _) hga) (min_le_right _ _)
  have hhiB : ps.getD ⌊b⌋.toNat 0 ≤ ps.getD (min (⌊b⌋.toNat + 1) (ps.length - 1)) 0 :=
    hmono _ _ (le_min (Nat.le_succ _) hgb) (min_le_right _ _)
  simp only [interpAt]
  rw [min_eq_left hga, min_eq_left hgb]
  rcases Nat.lt_or_ge ⌊a⌋.toNat ⌊b⌋.toNat with hlt | hge
  · have hmid : ps.getD (min (⌊a⌋.toNat + 1) (ps.length - 1)) 0 ≤ ps.getD ⌊b⌋.toNat 0 :=
      hmono _ _ (le_trans (min_le_left _ _) (by omega)) hgb
    have hup : ps.getD ⌊a⌋.toNat 0 +
        (a - (⌊a⌋.toNat : ℚ)) *
          (ps.getD (min (⌊a⌋.toNat + 1) (ps.length - 1)) 0 - ps.getD ⌊a⌋.toNat 0) ≤
        ps.getD (min (⌊a⌋.toNat + 1) (ps.length - 1)) 0 := by
      nlinarith [mul_nonneg (by linarith : (0 : ℚ) ≤ 1 - (a - (⌊a⌋.toNat : ℚ)))
        (sub_nonneg.mpr hhiA)]
    have hlow : ps.getD ⌊b⌋.toNat 0 ≤ ps.getD ⌊b⌋.toNat 0 +
        (b - (⌊b⌋.toNat : ℚ)) *
          (ps.getD (min (⌊b⌋.toNat + 1) (ps.length - 1)) 0 - ps.getD ⌊b⌋.toNat 0) := by
      nlinarith [mul_nonneg (by linarith : (0 : ℚ) ≤ b - (⌊b⌋.toNat : ℚ))
        (sub_nonneg.mpr hhiB)]
    linarith
  · have heq : ⌊a⌋.toNat = ⌊b⌋.toNat := by
      have hff : ⌊a⌋ ≤ ⌊b⌋ := Int.floor_le_floor hab
      omega
    rw [heq]
    nlinarith [mul_nonneg (sub_nonneg.mpr hab) (sub_nonneg.mpr hhiB)]

theorem npQuantile_mono {l : List ℚ} (hl : l ≠ []) {a b : ℚ} (ha : 0 ≤ a)
    (hab : a ≤ b) (hb : b ≤ 1) :
    ∃ u v, npQuantile l a = some u ∧ npQuantile l b = some v ∧ u ≤ v := by
  have hn : 1 ≤ l.length := List.length_pos.mpr hl
  have hn1 : (0 : ℚ) ≤ (l.length : ℚ) - 1 := by
    have h2 : (1 : ℚ) ≤ (l.length : ℚ) := by exact_mod_cast hn
    linarith
  have hsne : sortQ l ≠ [] := sortOn_ne_nil id hl
  unfold npQuantile
  rw [if_neg hl, if_neg hl]
  refine ⟨_, _, rfl, rfl, ?_⟩
  have hlen : (sortQ l).length = l.length := (sortQ_perm l).length_eq
  apply interpAt_le (sortQ l) (sortQ_sorted l) hsne
  · exact mul_nonneg ha hn1
  · exact mul_le_mul_of_nonneg_right hab hn1
  · rw [hlen]
    nlinarith

theorem weighted_quantile_mem {l : List (ℚ × ℚ)} {q v : ℚ} (h0 : 0 < q) (h1 : q < 1)
    (h : weighted_quantile l q = some v) : v ∈ l.map Prod.fst := by
  unfold weighted_quantile at h
  by_cases hl : l = []
  · rw [if_pos hl] at h
    exact absurd h (by simp)
  · rw [if_neg hl, if_neg (not_le.mpr h0), if_neg (not_le.mpr h1)] at h
    exact ((sortOn_perm Prod.fst l).map Prod.fst).mem_iff.mp (pickCum_mem _ _ _ _ h)

theorem weighted_quantile_isSome {l : List (ℚ × ℚ)} (hl : l ≠ []) {q : ℚ}
    (h0 : 0 < q) (h1 : q < 1) (ht : 0 < sumSnd l) :
    ∃ v, weighted_quantile l q = some v := by
  unfold weighted_quantile
  rw [if_neg hl, if_neg (not_le.mpr h0), if_neg (not_le.mpr h1)]
  have hsne : sortPairs l ≠ [] := sortOn_ne_nil Prod.fst hl
  apply pickCum_isSome _ _ 0 hsne
  rw [sumSnd_sortPairs]
  nlinarith

theorem weighted_quantile_mono {l : List (ℚ × ℚ)} {q1 q2 u v : ℚ}
    (h12 : q1 ≤ q2) (hq1 : 0 < q1) (hq2 : q2 < 1) (hs : 0 ≤ sumSnd l)
    (h1 : weighted_quantile l q1 = some u) (h2 : weighted_quantile l q2 = some v) :
    u ≤ v := by
  unfold weighted_quantile at h1 h2
  by_cases hl : l = []
  · rw [if_pos hl] at h1
    exact absurd h1 (by simp)
  · rw [if_neg hl, if_neg (not_le.mpr hq1),
      if_neg (not_le.mpr (lt_of_le_of_lt h12 hq2))] at h1
    rw [if_neg hl, if_neg (not_le.mpr (lt_of_lt_of_le hq1 h12)),
      if_neg (not_le.mpr hq2)] at h2
    exact pickCum_mono (mul_le_mul_of_nonneg_right h12 hs) (sortPairs l) 0 u v
      (sortOn_sorted Prod.fst l) h1 h2

/-! ### Lemmas about the expansion used for the MAD -/

theorem repCount_natCast {n : ℕ} (hn : 0 < n) : repCount ((n : ℕ) : ℚ) = n := by
  unfold repCount
  rw [Int.floor_natCast]
  simp only [Int.toNat_ofNat]
  omega

theorem expand_mem {y : ℚ} :
    ∀ {P : List (ℚ × ℚ)}, y ∈ expand P → ∃ vw ∈ P, y = vw.1 := by
  intro P
  induction P with
  | nil => intro h; simp [expand] at h
  | cons a rest ih =>
    intro h
    rcases List.mem_append.mp h with h1 | h2
    · exact ⟨a, by simp, (List.eq_of_mem_replicate h1)⟩
    · obtain ⟨vw, hvw, hy⟩ := ih h2
      exact ⟨vw, by simp [hvw], hy⟩

theorem expand_map (f : ℚ → ℚ) :
    ∀ l : List (ℚ × ℚ), expand (l.map fun vw => (f vw.1, vw.2)) = (expand l).map f := by
  intro l
  induction l with
  | nil => rfl
  | cons a rest ih =>
    simp only [List.map_cons, expand, List.map_append, ih, List.map_replicate]

theorem expand_perm {P Q : List (ℚ × ℚ)} (h : List.Perm P Q) :
    List.Perm (expand P) (expand Q) := by
  induction h with
  | nil => exact List.Perm.refl _
  | cons x _ ih => exact ih.append_left _
  | swap x y l =>
    simp only [expand]
    rw [← List.append_assoc, ← List.append_assoc]
    exact (@List.perm_append_comm _ _ _).append_right (expand l)
  | trans _ _ ih1 ih2 => exact ih1.trans ih2

theorem expand_sorted :
    ∀ {P : List (ℚ × ℚ)}, P.Pairwise (fun x y => x.1 ≤ y.1) →
      (expand P).Pairwise (· ≤ ·) := by
  intro P
  induction P with
  | nil => intro _; simp [expand]
  | cons a rest ih =>
    intro h
    obtain ⟨h1, h2⟩ := List.pairwise_cons.mp h
    simp only [expand]
    apply List.pairwise_append.mpr
    refine ⟨List.pairwise_replicate.mpr (Or.inr (le_refl a.1)), ih h2, ?_⟩
    intro x hx y hy
    rw [List.eq_of_mem_replicate hx]
    obtain ⟨vw, hvw, hyv⟩ := expand_mem hy
    rw [hyv]
    exact h1 vw hvw

theorem expand_length_int :
    ∀ {P : List (ℚ × ℚ)}, (∀ vw ∈ P, ∃ n : ℕ, 0 < n ∧ vw.2 = (n : ℚ)) →
      ((expand P).length : ℚ) = sumSnd P := by
  intro P
  induction P with
  | nil => intro _; simp [expand, sumSnd]
  | cons a rest ih =>
    intro h
    obtain ⟨n, hn, ha⟩ := h a (by simp)
    have hr := ih fun vw hvw => h vw (by simp [hvw])
    simp only [expand, List.length_append, List.length_replicate, sumSnd, List.map_cons,
      List.sum_cons]
    rw [ha, repCount_natCast hn]
    push_cast
    rw [hr]
    simp [sumSnd]

theorem sumSnd_map_value (f : ℚ → ℚ) (l : List (ℚ × ℚ)) :
    sumSnd (l.map fun vw => (f vw.1, vw.2)) = sumSnd l := by
  unfold sumSnd
  rw [List.map_map]
  rfl

theorem pickCum_expand :
    ∀ (P : List (ℚ × ℚ)), (∀ vw ∈ P, ∃ n : ℕ, 0 < n ∧ vw.2 = (n : ℚ)) →
      ∀ (k : ℕ), k < (expand P).length → ∀ acc : ℚ,
        pickCum (acc + k + 1 / 2) acc P = some ((expand P).getD k 0) := by
  intro P
  induction P with
  | nil =>
    intro _ k hk
    simp [expand] at hk
  | cons a rest ih =>
    intro h k hk acc
    obtain ⟨n, hn, ha⟩ := h a (by simp)
    have hrep : repCount a.2 = n := by rw [ha]; exact repCount_natCast hn
    rw [pickCum]
    by_cases hc : k < n
    · have hcond : acc + k + 1 / 2 ≤ acc + a.2 := by
        rw [ha]
        have hkn : (k : ℚ) + 1 ≤ (n : ℚ) := by exact_mod_cast hc
        linarith
      rw [if_pos hcond]
      have hget : (expand (a :: rest)).getD k 0 = a.1 := by
        simp only [expand]
        rw [List.getD_append _ _ _ _ (by rw [List.length_replicate, hrep]; exact hc)]
        rw [List.getD_eq_getElem _ _ (by rw [List.length_replicate, hrep]; exact hc)]
        exact List.getElem_replicate _ _
      rw [hget]
    · have hnk : n ≤ k := Nat.le_of_not_lt hc
      have hcond : ¬ (acc + k + 1 / 2 ≤ acc + a.2) := by
        rw [ha]
        push_neg
        have hkn : (n : ℚ) ≤ (k : ℚ) := by exact_mod_cast hnk
        linarith
      rw [if_neg hcond]
      have hk2 : k - n < (expand rest).length := by
        simp only [expand, List.length_append, List.length_replicate, hrep] at hk
        omega
      have hrec := ih (fun vw hvw => h vw (by simp [hvw])) (k - n) hk2 (acc + a.2)
      have hcast : ((k - n : ℕ) : ℚ) = (k : ℚ) - (n : ℚ) := by
        have := Nat.cast_sub hnk (R := ℚ)
        exact_mod_cast this
      have harg : acc + a.2 + ((k - n : ℕ) : ℚ) + 1 / 2 = acc + k + 1 / 2 := by
        rw [ha, hcast]
        ring
      rw [harg] at hrec
      rw [hrec]
      have hget : (expand (a :: rest)).getD k 0 = (expand rest).getD (k - n) 0 := by
        simp only [expand]
        rw [List.getD_append_right _ _ _ _ (by rw [List.length_replicate, hrep]; omega)]
        rw [List.length_replicate, hrep]
      rw [hget]

/-! ### Lemmas about the normalizer and the per-item pipeline plumbing -/

theorem slots_to_long_inv :
    ∀ (slots : List (Option ℚ × Option ℚ)) (id i : ℕ) (r : LongRow),
      r ∈ slots_to_long id i slots → r.item_id = id ∧ 0 < r.quantity := by
  intro slots
  induction slots with
  | nil => intro id i r h; simp [slots_to_long] at h
  | cons s rest ih =>
    intro id i r h
    obtain ⟨op, oq⟩ := s
    rcases op with _ | p
    · rw [slots_to_long_nn] at h
      exact ih id (i + 1) r h
    · rcases oq with _ | q
      · rw [slots_to_long_sn] at h
        exact ih id (i + 1) r h
      · rw [slots_to_long_ss] at h
        by_cases hq : 0 < q
        · rw [if_pos hq] at h
          rcases List.mem_cons.mp h with he | hm
          · rw [he]
            exact ⟨rfl, hq⟩
          · exact ih id (i + 1) r hm
        · rw [if_neg hq] at h
          exact ih id (i + 1) r h

theorem slots_to_long_cons_subset (id i : ℕ) (s : Option ℚ × Option ℚ)
    (rest : List (Option ℚ × Option ℚ)) (r : LongRow)
    (h : r ∈ slots_to_long id (i + 1) rest) : r ∈ slots_to_long id i (s :: rest) := by
  obtain ⟨op, oq⟩ := s
  rcases op with _ | p
  · rw [slots_to_long_nn]
    exact h
  · rcases oq with _ | q
    · rw [slots_to_long_sn]
      exact h
    · rw [slots_to_long_ss]
      by_cases hq : 0 < q
      · rw [if_pos hq]
        exact List.mem_cons_of_mem _ h
      · rw [if_neg hq]
        exact h

theorem slots_to_long_complete :
    ∀ (slots : List (Option ℚ × Option ℚ)) (id i j : ℕ) (p q : ℚ),
      slots.get? j = some (some p, some q) → 0 < q →
      ∃ r ∈ slots_to_long id i slots,
        r.listing_rank = i + j ∧ r.price = p ∧ r.quantity = q := by
  intro slots
  induction slots with
  | nil => intro id i j p q h; simp at h
  | cons s rest ih =>
    intro id i j p q hget hq
    cases j with
    | zero =>
      have hs : s = (some p, some q) := by simpa using hget
      subst hs
      rw [slots_to_long_ss, if_pos hq]
      exact ⟨⟨id, i, p, q⟩, List.mem_cons_self _ _, by simp⟩
    | succ j2 =>
      have hget2 : rest.get? j2 = some (some p, some q) := by simpa using hget
      obtain ⟨r, hr, hrank, hp, hqq⟩ := ih id (i + 1) j2 p q hget2 hq
      exact ⟨r, slots_to_long_cons_subset id i s rest r hr, by omega, hp, hqq⟩

theorem mem_wide_to_long (rows : List WideRow) (r : LongRow) :
    r ∈ wide_to_long rows ↔ ∃ w ∈ rows, r ∈ slots_to_long w.item_id 1 w.slots := by
  unfold wide_to_long
  exact List.mem_flatMap

theorem mem_insertId (x : ℕ) : ∀ (l : List ℕ) (y : ℕ), y ∈ insertId x l ↔ y = x ∨ y ∈ l := by
  intro l
  induction l with
  | nil => intro y; simp [insertId]
  | cons a rest ih =>
    intro y
    rw [insertId]
    by_cases h1 : x < a
    · rw [if_pos h1]
      simp only [List.mem_cons]
    · rw [if_neg h1]
      by_cases h2 : x = a
      · rw [if_pos h2]
        subst h2
        simp only [List.mem_cons]
        tauto
      · rw [if_neg h2]
        simp only [List.mem_cons, ih y]
        tauto

theorem mem_item_ids (rows : List LongRow) (id : ℕ) :
    id ∈ item_ids rows ↔ id ∈ rows.map LongRow.item_id := by
  unfold item_ids
  induction rows with
  | nil => simp
  | cons r rest ih =>
    simp only [List.map_cons, List.foldr_cons, List.mem_cons]
    rw [mem_insertId, ih]

theorem compute_item_id {id : ℕ} {rows : List ERow} {s : Suggestion}
    (h : compute_price_suggestions_for_item id rows = some s) : s.item_id = id := by
  unfold compute_price_suggestions_for_item at h
  cases rows with
  | nil => simp at h
  | cons a rest =>
    simp only at h
    split at h
    · rw [← Option.some_inj.mp h]
    · rw [← Option.some_inj.mp h]

theorem cleanOf_ne_nil {rows : List ERow} (h : rows ≠ []) : cleanOf rows ≠ [] := by
  unfold cleanOf
  by_cases hc : rows.filter (fun r => !r.is_suspected_anchor) = []
  · rw [if_pos hc]
    exact h
  · rw [if_neg hc]
    exact hc

theorem sumSnd_pairsOf (book : List Listing) : sumSnd (pairsOf book) = totalQty book := by
  unfold sumSnd pairsOf totalQty
  rw [List.map_map]
  rfl

theorem map_fst_pairsOf (book : List Listing) :
    (pairsOf book).map Prod.fst = pricesOf book := by
  unfold pairsOf pricesOf
  rw [List.map_map]
  rfl

theorem sumSnd_pairsOfE (rows : List ERow) : sumSnd (pairsOfE rows) = totalQtyE rows := by
  unfold sumSnd pairsOfE totalQtyE
  rw [List.map_map]
  rfl

theorem map_fst_pairsOfE (rows : List ERow) :
    (pairsOfE rows).map Prod.fst = rows.map ERow.price := by
  unfold pairsOfE
  rw [List.map_map]
  rfl

theorem price_median_pos {book : List Listing} (hne : book ≠ [])
    (hpos : ∀ x ∈ book, 0 < x.price) :
    ∃ m, price_median book = some m ∧ 0 < m := by
  unfold price_median
  by_cases ht : totalQty book ≤ 0
  · rw [if_pos ht]
    have hne2 : pricesOf book ≠ [] := by
      unfold pricesOf
      simpa using hne
    obtain ⟨m, hm⟩ := npMedian_isSome hne2
    refine ⟨m, hm, npMedian_pos ?_ hm⟩
    intro x hx
    obtain ⟨y, hy, hxy⟩ := List.mem_map.mp hx
    rw [← hxy]
    exact hpos y hy
  · rw [if_neg ht]
    have hne2 : pairsOf book ≠ [] := by
      unfold pairsOf
      simpa using hne
    have htot : 0 < sumSnd (pairsOf book) := by
      rw [sumSnd_pairsOf]
      exact lt_of_not_le ht
    unfold weighted_median
    obtain ⟨v, hv⟩ := pickCum_isSome (sumSnd (pairsOf book) / 2) (sortPairs (pairsOf book)) 0
      (sortOn_ne_nil Prod.fst hne2) (by rw [sumSnd_sortPairs]; linarith)
    refine ⟨v, hv, ?_⟩
    have hm := pickCum_mem _ _ _ _ hv
    have hm2 : v ∈ (pairsOf book).map Prod.fst :=
      ((sortOn_perm Prod.fst _).map Prod.fst).mem_iff.mp hm
    rw [map_fst_pairsOf] at hm2
    obtain ⟨y, hy, hxy⟩ := List.mem_map.mp hm2
    rw [← hxy]
    exact hpos y hy

/-! ### Lemmas about the level-share maxima used by the regime classifier -/

theorem maxQ_div {l : List ℚ} {c : ℚ} (hc : 0 < c) :
    maxQ (l.map fun x => x / c) = (maxQ l).map fun x => x / c := by
  cases l with
  | nil => rfl
  | cons a t =>
    simp only [maxQ, List.map_cons, Option.map_some]
    congr 1
    induction t generalizing a with
    | nil => rfl
    | cons b t ih =>
      simp only [List.map_cons, List.foldl_cons]
      rw [max_div_div_right (le_of_lt hc) a b]
      exact ih (max a b)

theorem maxQ_all_zero {l : List ℚ} (hne : l ≠ []) (h : ∀ x ∈ l, x = 0) :
    maxQ l = some 0 := by
  obtain ⟨m, hm⟩ := maxQ_isSome hne
  rw [hm, Option.some_inj]
  exact h m (maxQ_spec hm).1

theorem spec_level_share_eq (book : List Listing) (p : ℚ) :
    spec_level_share (pairsOf book) p = level_share book p := by
  unfold spec_level_share level_share level_qty
  rw [sumSnd_pairsOf]
  have hfil : ((pairsOf book).filter fun vw => vw.1 == p) =
      pairsOf (book.filter fun x => x.price == p) := by
    unfold pairsOf
    rw [List.filter_map]
    rfl
  rw [hfil]
  have hsum : (List.map Prod.snd (pairsOf (book.filter fun x => x.price == p))).sum =
      (List.map Listing.quantity (book.filter fun x => x.price == p)).sum := by
    unfold pairsOf
    rw [List.map_map]
    rfl
  rw [hsum]

theorem max_level_share_eq_spec (book : List Listing) :
    max_level_share book = spec_max_level_share (pairsOf book) := by
  unfold max_level_share spec_max_level_share
  rw [map_fst_pairsOf]
  by_cases hne : book = []
  · subst hne
    rfl
  · have h1 : (book.map fun x => level_share book x.price) ≠ [] := by simpa using hne
    have h2 : ((pricesOf book).dedup.map (spec_level_share (pairsOf book))) ≠ [] := by
      have : pricesOf book ≠ [] := by unfold pricesOf; simpa using hne
      simpa [List.dedup_eq_nil] using this
    rw [maxQ_eq_of_mem_iff h1 h2 ?_]
    intro x
    constructor
    · intro hx
      obtain ⟨y, hy, hxy⟩ := List.mem_map.mp hx
      apply List.mem_map.mpr
      refine ⟨y.price, List.mem_dedup.mpr ?_, ?_⟩
      · exact List.mem_map.mpr ⟨y, hy, rfl⟩
      · rw [spec_level_share_eq]
        exact hxy
    · intro hx
      obtain ⟨p, hp, hxp⟩ := List.mem_map.mp hx
      rw [spec_level_share_eq] at hxp
      obtain ⟨y, hy, hyp⟩ := List.mem_map.mp (List.mem_dedup.mp hp)
      apply List.mem_map.mpr
      refine ⟨y, hy, ?_⟩
      rw [show Listing.price y = y.price from rfl] at hyp
      rw [hyp]
      exact hxp

/-! ### Claim theorems -/

/-- C1 (counterexample): an item whose slots yield zero valid listings
produces NO PriceSuggestion record at all: the pipeline output for an input
consisting only of such an item is empty, contradicting the claim that a
record with NaN prices and num_listings = 0 is still produced. -/
theorem C1_counterexample :
    pipeline_summaries [⟨7, [(some 5, some 0), (none, some 3), (some 4, none)]⟩] = [] := by
  with_unfolding_all decide

/-- C1 (amended): an item with zero valid listings after normalization is
silently omitted from the pipeline output (no exception is raised: every
stage is total on such input), and invoking the suggestion stage directly on
an empty book does not return the sentinel record either (the source raises
at the first field access, modeled as `none`). -/
theorem C1_empty_item_omitted (wide : List WideRow) (id : ℕ)
    (h : (wide_to_long wide).filter (fun r => r.item_id == id) = []) :
    (∀ s ∈ pipeline_summaries wide, s.item_id ≠ id) ∧
      compute_price_suggestions_for_item id [] = none := by
  refine ⟨?_, rfl⟩
  intro s hs hsid
  unfold pipeline_summaries build_summary at hs
  obtain ⟨id2, hid2, hc⟩ := List.mem_filterMap.mp hs
  have hid2eq : id2 = id := by
    rw [← compute_item_id hc, hsid]
  subst hid2eq
  obtain ⟨r, hr, hrid⟩ := List.mem_map.mp ((mem_item_ids _ id2).mp hid2)
  have hbeq : (r.item_id == id2) = true := by
    have hrid2 : r.item_id = id2 := hrid
    simp [hrid2]
  have hmem : r ∈ (wide_to_long wide).filter (fun r => r.item_id == id2) :=
    List.mem_filter.mpr ⟨hr, hbeq⟩
  rw [h] at hmem
  exact absurd hmem (List.not_mem_nil r)

/-- C1 (witness): a wide frame with one degenerate item (id 7, only a
zero-quantity slot) and one valid item (id 3); the pipeline yields no record
with item id 7. -/
theorem C1_empty_item_omitted_witness :
    ((wide_to_long [⟨7, [(some 5, some 0)]⟩, ⟨3, [(some 2, some 1)]⟩]).filter
        (fun r => r.item_id == 7) = []) ∧
    ((∀ s ∈ pipeline_summaries [⟨7, [(some 5, some 0)]⟩, ⟨3, [(some 2, some 1)]⟩],
        s.item_id ≠ 7) ∧
      compute_price_suggestions_for_item 7 [] = none) :=
  ⟨by with_unfolding_all decide,
   C1_empty_item_omitted [⟨7, [(some 5, some 0)]⟩, ⟨3, [(some 2, some 1)]⟩] 7
     (by with_unfolding_all decide)⟩

/-- C2 (counterexample): a slot with price 0 (not > 0) and quantity 1 is
emitted by the normalizer, so listings with non-positive prices do reach the
downstream stages, contradicting the claimed price > 0 filter. -/
theorem C2_counterexample :
    wide_to_long [⟨1, [(some 0, some 1)]⟩] = [⟨1, 1, 0, 1⟩] ∧ ¬ (0 : ℚ) > 0 := by
  constructor
  · with_unfolding_all decide
  · norm_num

/-- C2 (amended): the normalizer emits a record for a slot iff both cells
are present and numeric and the quantity is strictly positive; the price is
not checked.  Consequently every emitted listing has quantity > 0 and
carries its row's item id, but its price may be any rational. -/
theorem C2_normalizer_emission (rows : List WideRow) (r : LongRow)
    (id i j : ℕ) (slots : List (Option ℚ × Option ℚ)) (p q : ℚ) :
    (r ∈ wide_to_long rows → 0 < r.quantity) ∧
    (slots.get? j = some (some p, some q) → 0 < q →
      ∃ x ∈ slots_to_long id i slots,
        x.listing_rank = i + j ∧ x.price = p ∧ x.quantity = q) ∧
    (∀ x ∈ slots_to_long id i slots, x.item_id = id ∧ 0 < x.quantity) := by
  refine ⟨?_, ?_, ?_⟩
  · intro h
    obtain ⟨w, _, hw⟩ := (mem_wide_to_long rows r).mp h
    exact (slots_to_long_inv w.slots w.item_id 1 r hw).2
  · exact fun hget hq => slots_to_long_complete slots id i j p q hget hq
  · exact fun x hx => slots_to_long_inv slots id i x hx

/-- C2 (witness): instantiating the emission characterization on a concrete
slot list: slot 2 of item 5 holds (price 7, quantity 3) and is emitted with
rank 2. -/
theorem C2_normalizer_emission_witness :
    ∃ x ∈ slots_to_long 5 1 [(none, some 1), (some 7, some 3)],
      x.listing_rank = 1 + 1 ∧ x.price = 7 ∧ x.quantity = 3 :=
  (C2_normalizer_emission [] ⟨5, 2, 7, 3⟩ 5 1 1 [(none, some 1), (some 7, some 3)] 7 3).2.1
    (by with_unfolding_all decide) (by norm_num)

/-- C9 (confirmed): the set of listings used for pricing is never empty for
a nonempty book: it is the book minus the flagged listings, except that when
every listing is flagged the full book is used; num_listings and
num_suspected_anchors are counted over the original, uncleaned book. -/
theorem C9_clean_set_fallback (id : ℕ) (rows : List ERow) (hne : rows ≠ []) :
    cleanOf rows ≠ [] ∧
    (rows.filter (fun r => !r.is_suspected_anchor) ≠ [] →
      cleanOf rows = rows.filter (fun r => !r.is_suspected_anchor)) ∧
    (rows.filter (fun r => !r.is_suspected_anchor) = [] → cleanOf rows = rows) ∧
    ∃ s, compute_price_suggestions_for_item id rows = some s ∧
      s.num_listings = rows.length ∧
      s.num_suspected_anchors = (rows.filter fun r => r.is_suspected_anchor).length := by
  refine ⟨cleanOf_ne_nil hne, ?_, ?_, ?_⟩
  · intro hf
    unfold cleanOf
    rw [if_neg hf]
  · intro hf
    unfold cleanOf
    rw [if_pos hf]
  · cases rows with
    | nil => exact absurd rfl hne
    | cons a rest =>
      unfold compute_price_suggestions_for_item
      simp only
      split
      · exact ⟨_, rfl, rfl, rfl⟩
      · exact ⟨_, rfl, rfl, rfl⟩

/-- C9 (witness): a one-row book whose single listing is flagged as an
anchor; the fallback keeps the book nonempty and the counts are taken over
the original book. -/
theorem C9_clean_set_fallback_witness :
    cleanOf [⟨10, 1, 0, 1, true⟩] ≠ [] ∧
    (([⟨10, 1, 0, 1, true⟩] : List ERow).filter (fun r => !r.is_suspected_anchor) ≠ [] →
      cleanOf [⟨10, 1, 0, 1, true⟩] =
        ([⟨10, 1, 0, 1, true⟩] : List ERow).filter (fun r => !r.is_suspected_anchor)) ∧
    (([⟨10, 1, 0, 1, true⟩] : List ERow).filter (fun r => !r.is_suspected_anchor) = [] →
      cleanOf [⟨10, 1, 0, 1, true⟩] = [⟨10, 1, 0, 1, true⟩]) ∧
    ∃ s, compute_price_suggestions_for_item 4 [⟨10, 1, 0, 1, true⟩] = some s ∧
      s.num_listings = ([⟨10, 1, 0, 1, true⟩] : List ERow).length ∧
      s.num_suspected_anchors =
        (([⟨10, 1, 0, 1, true⟩] : List ERow).filter fun r => r.is_suspected_anchor).length :=
  C9_clean_set_fallback 4 [⟨10, 1, 0, 1, true⟩] (List.cons_ne_nil _ _)

/-- C7 (confirmed): the weighted quantile sorts by ascending price,
accumulates quantity, and returns the price at the first position where the
cumulative quantity reaches q times the total; for q ≤ 0 it returns the
minimum price, for q ≥ 1 the maximum price, and the weighted median is
exactly the q = 1/2 case. -/
theorem C7_weighted_quantile (l : List (ℚ × ℚ)) (q : ℚ) (hne : l ≠ [])
    (ht : 0 < sumSnd l) :
    (q ≤ 0 → ∃ v, weighted_quantile l q = some v ∧ v ∈ l.map Prod.fst ∧
      ∀ x ∈ l.map Prod.fst, v ≤ x) ∧
    (1 ≤ q → ∃ v, weighted_quantile l q = some v ∧ v ∈ l.map Prod.fst ∧
      ∀ x ∈ l.map Prod.fst, x ≤ v) ∧
    (0 < q → q < 1 → ∃ v i vw, weighted_quantile l q = some v ∧
      (sortPairs l).get? i = some vw ∧ vw.1 = v ∧
      q * sumSnd l ≤ cumTo (sortPairs l) (i + 1) ∧
      ∀ j < i, cumTo (sortPairs l) (j + 1) < q * sumSnd l) ∧
    weighted_median l = weighted_quantile l (1 / 2) := by
  refine ⟨?_, ?_, ?_, weighted_median_eq_quantile_half l⟩
  · intro hq
    unfold weighted_quantile
    rw [if_neg hne, if_pos hq]
    have hne2 : l.map Prod.fst ≠ [] := by simpa using hne
    obtain ⟨v, hv⟩ := minQ_isSome hne2
    obtain ⟨h1, h2⟩ := minQ_spec hv
    exact ⟨v, hv, h1, h2⟩
  · intro hq
    unfold weighted_quantile
    rw [if_neg hne, if_neg (not_le.mpr (lt_of_lt_of_le zero_lt_one hq)), if_pos hq]
    have hne2 : l.map Prod.fst ≠ [] := by simpa using hne
    obtain ⟨v, hv⟩ := maxQ_isSome hne2
    obtain ⟨h1, h2⟩ := maxQ_spec hv
    exact ⟨v, hv, h1, h2⟩
  · intro h0 h1
    obtain ⟨v, hv⟩ := weighted_quantile_isSome hne h0 h1 ht
    have hv2 := hv
    unfold weighted_quantile at hv2
    rw [if_neg hne, if_neg (not_le.mpr h0), if_neg (not_le.mpr h1)] at hv2
    obtain ⟨i, vw, hget, hvw, hle, hfirst⟩ := pickCum_first _ _ _ _ hv2
    rw [zero_add] at hle
    refine ⟨v, i, vw, hv, hget, hvw, hle, ?_⟩
    intro j hj
    have hj2 := hfirst j hj
    linarith

/-- C7 (witness): the weighted quantile characterization evaluated on the
two-listing book [(5, 2), (3, 4)] at q = 1/2. -/
theorem C7_weighted_quantile_witness :
    ([(5, 2), (3, 4)] : List (ℚ × ℚ)) ≠ [] ∧ 0 < sumSnd [(5, 2), (3, 4)] ∧
    ∃ v i vw, weighted_quantile [(5, 2), (3, 4)] (1 / 2) = some v ∧
      (sortPairs [(5, 2), (3, 4)]).get? i = some vw ∧ vw.1 = v ∧
      1 / 2 * sumSnd [(5, 2), (3, 4)] ≤ cumTo (sortPairs [(5, 2), (3, 4)]) (i + 1) ∧
      ∀ j < i, cumTo (sortPairs [(5, 2), (3, 4)]) (j + 1) < 1 / 2 * sumSnd [(5, 2), (3, 4)] :=
  ⟨by with_unfolding_all decide, by with_unfolding_all decide,
   (C7_weighted_quantile [(5, 2), (3, 4)] (1 / 2) (by with_unfolding_all decide)
      (by with_unfolding_all decide)).2.2.1 (by norm_num) (by norm_num)⟩

theorem clean_max_share_eq_spec (rows : List ERow) :
    (if 0 < totalQtyE rows then maxLevelQtyE rows / totalQtyE rows else 0) =
      spec_max_level_share (pairsOfE rows) := by
  by_cases ht : 0 < totalQtyE rows
  · rw [if_pos ht]
    have hne : rows ≠ [] := by
      intro hx
      rw [hx] at ht
      simp [totalQtyE] at ht
    unfold maxLevelQtyE spec_max_level_share
    rw [map_fst_pairsOfE]
    have hshare : ∀ p ∈ (rows.map ERow.price).dedup,
        spec_level_share (pairsOfE rows) p =
          ((rows.filter fun r => r.price == p).map ERow.quantity).sum / totalQtyE rows := by
      intro p _
      unfold spec_level_share
      rw [sumSnd_pairsOfE, if_pos ht]
      have hfil : ((pairsOfE rows).filter fun vw => vw.1 == p) =
          pairsOfE (rows.filter fun r => r.price == p) := by
        unfold pairsOfE
        rw [List.filter_map]
        rfl
      rw [hfil]
      have hnum : (List.map Prod.snd (pairsOfE (rows.filter fun r => r.price == p))).sum =
          (List.map ERow.quantity (rows.filter fun r => r.price == p)).sum := by
        unfold pairsOfE
        rw [List.map_map]
        rfl
      rw [hnum]
    rw [List.map_congr_left hshare]
    have hdiv : ((rows.map ERow.price).dedup.map fun p =>
          ((rows.filter fun r => r.price == p).map ERow.quantity).sum / totalQtyE rows) =
        (((rows.map ERow.price).dedup.map fun p =>
          ((rows.filter fun r => r.price == p).map ERow.quantity).sum).map
            fun x => x / totalQtyE rows) := by
      rw [List.map_map]
      rfl
    rw [hdiv, maxQ_div ht]
    have hne2 : ((rows.map ERow.price).dedup.map fun p =>
        ((rows.filter fun r => r.price == p).map ERow.quantity).sum) ≠ [] := by
      have hd : (rows.map ERow.price).dedup ≠ [] := by
        intro hx
        have hmn := (List.dedup_eq_nil _).mp hx
        rw [List.map_eq_nil_iff] at hmn
        exact hne hmn
      simpa using hd
    obtain ⟨M, hM⟩ := maxQ_isSome hne2
    rw [hM]
    rfl
  · rw [if_neg ht]
    unfold spec_max_level_share
    have hz : ∀ x ∈ ((pairsOfE rows).map Prod.fst).dedup.map (spec_level_share (pairsOfE rows)),
        x = 0 := by
      intro x hx
      obtain ⟨p, _, hxp⟩ := List.mem_map.mp hx
      rw [← hxp]
      unfold spec_level_share
      rw [sumSnd_pairsOfE, if_neg ht]
    by_cases hne : rows = []
    · subst hne
      rfl
    · have hne2 : ((pairsOfE rows).map Prod.fst).dedup.map
          (spec_level_share (pairsOfE rows)) ≠ [] := by
        rw [map_fst_pairsOfE]
        have hd : (rows.map ERow.price).dedup ≠ [] := by
          intro hx
          have hmn := (List.dedup_eq_nil _).mp hx
          rw [List.map_eq_nil_iff] at hmn
          exact hne hmn
        simpa using hd
      rw [maxQ_all_zero hne2 hz]
      rfl

/-- Book used to show that the two regime classifications can disagree: the
full book (total 600, an expensive level holding exactly half the quantity)
is Exclusive, while the cleaned book (after the six price-200 listings are
flagged) has total 300 spread over three levels and is Normal. -/
def regime_example_book : List Listing :=
  [⟨10, 100⟩, ⟨11, 100⟩, ⟨12, 100⟩,
   ⟨200, 50⟩, ⟨200, 50⟩, ⟨200, 50⟩, ⟨200, 50⟩, ⟨200, 50⟩, ⟨200, 50⟩]

/-- C5 (confirmed): a book is classified Exclusive exactly when its total
quantity is at most 200 or its maximum price-level quantity share is at
least one half; the rule is applied once over the full book (anchor stage)
and once, with the clean set's own totals, over the cleaned set (pricing
stage), and the two results can differ, as the example book shows. -/
theorem C5_regime_classification :
    (∀ book : List Listing,
      exclusive_mode_full book = true ↔
        (totalQty book ≤ 200 ∨ 1 / 2 ≤ spec_max_level_share (pairsOf book))) ∧
    (∀ rows : List ERow,
      exclusive_mode_clean rows = true ↔
        (totalQtyE rows ≤ 200 ∨ 1 / 2 ≤ spec_max_level_share (pairsOfE rows))) ∧
    exclusive_mode_full regime_example_book = true ∧
    exclusive_mode_clean (cleanOf (enrich_item_orders regime_example_book)) = false := by
  refine ⟨?_, ?_, ?_⟩
  · intro book
    unfold exclusive_mode_full
    rw [max_level_share_eq_spec]
    simp [Bool.or_eq_true, decide_eq_true_iff]
  · intro rows
    simp only [exclusive_mode_clean]
    rw [clean_max_share_eq_spec]
    simp [Bool.or_eq_true, decide_eq_true_iff]
  · constructor
    · with_unfolding_all decide
    · with_unfolding_all decide

/-- C4 (confirmed): on a nonempty book of positive prices the median is a
positive value m, and a listing is flagged under the full-book Exclusive
regime iff price > m * 10 and (shallow-front or shallow-back or
quantity ≤ 50), and under the Normal regime iff |robust z| > 5 and shallow
and quantity < 50, where shallow means cum_qty_pct < 0.02 or > 0.98. -/
theorem C4_anchor_rules {book : List Listing} (hne : book ≠ [])
    (hpos : ∀ x ∈ book, 0 < x.price) :
    ∃ m, price_median book = some m ∧ 0 < m ∧
      ∀ r ∈ enrich_item_orders book,
        (exclusive_mode_full book = true →
          (r.is_suspected_anchor = true ↔
            (m * 10 < r.price ∧ (r.cum_qty_pct < 2 / 100 ∨ 1 - 2 / 100 < r.cum_qty_pct ∨
              r.quantity ≤ 50)))) ∧
        (exclusive_mode_full book = false →
          (r.is_suspected_anchor = true ↔
            (5 < |r.robust_z| ∧ (r.cum_qty_pct < 2 / 100 ∨ 1 - 2 / 100 < r.cum_qty_pct) ∧
              r.quantity < 50))) := by
  obtain ⟨m, hm, hmpos⟩ := price_median_pos hne hpos
  refine ⟨m, hm, hmpos, ?_⟩
  intro r hr
  unfold enrich_item_orders at hr
  simp only [List.mem_map] at hr
  obtain ⟨xc, hxc, heq⟩ := hr
  subst heq
  dsimp only
  constructor
  · intro hex
    unfold anchor_flag
    rw [hm, hex]
    simp [hmpos, Bool.and_eq_true, Bool.or_eq_true, decide_eq_true_eq]
    tauto
  · intro hex
    unfold anchor_flag
    rw [hm, hex]
    simp [Bool.and_eq_true, Bool.or_eq_true, decide_eq_true_eq]
    tauto

/-- C4 (witness): the anchor-rule characterization on the one-listing book
with price 10 and quantity 1. -/
theorem C4_anchor_rules_witness :
    ∃ m, price_median [⟨10, 1⟩] = some m ∧ 0 < m ∧
      ∀ r ∈ enrich_item_orders [⟨10, 1⟩],
        (exclusive_mode_full [⟨10, 1⟩] = true →
          (r.is_suspected_anchor = true ↔
            (m * 10 < r.price ∧ (r.cum_qty_pct < 2 / 100 ∨ 1 - 2 / 100 < r.cum_qty_pct ∨
              r.quantity ≤ 50)))) ∧
        (exclusive_mode_full [⟨10, 1⟩] = false →
          (r.is_suspected_anchor = true ↔
            (5 < |r.robust_z| ∧ (r.cum_qty_pct < 2 / 100 ∨ 1 - 2 / 100 < r.cum_qty_pct) ∧
              r.quantity < 50))) :=
  C4_anchor_rules (List.cons_ne_nil _ _)
    (by
      intro x hx
      rw [List.mem_singleton] at hx
      rw [hx]
      norm_num)

theorem compute_eq (id : ℕ) (a : ERow) (rest : List ERow) :
    compute_price_suggestions_for_item id (a :: rest) =
      some ⟨id, (a :: rest).length,
        ((a :: rest).filter fun r => r.is_suspected_anchor).length,
        some (max ((⌊fast_sell_raw (cleanOf (a :: rest))⌋ - 1 : ℤ) : ℚ) 0),
        (if exclusive_mode_clean (cleanOf (a :: rest)) then
          unweighted_price_quantile_from_df (cleanOf (a :: rest)) (1 / 2)
        else weighted_price_quantile_from_df (cleanOf (a :: rest)) (1 / 2)),
        (if exclusive_mode_clean (cleanOf (a :: rest)) then
          unweighted_price_quantile_from_df (cleanOf (a :: rest)) (3 / 4)
        else weighted_price_quantile_from_df (cleanOf (a :: rest)) (3 / 4)),
        (if exclusive_mode_clean (cleanOf (a :: rest)) then
          unweighted_price_quantile_from_df (cleanOf (a :: rest)) (1 / 2)
        else weighted_price_quantile_from_df (cleanOf (a :: rest)) (1 / 2)),
        (if exclusive_mode_clean (cleanOf (a :: rest)) then
          unweighted_price_quantile_from_df (cleanOf (a :: rest)) (1 / 4)
        else weighted_price_quantile_from_df (cleanOf (a :: rest)) (1 / 4)),
        (if exclusive_mode_clean (cleanOf (a :: rest)) then
          unweighted_price_quantile_from_df (cleanOf (a :: rest)) (3 / 4)
        else weighted_price_quantile_from_df (cleanOf (a :: rest)) (3 / 4))⟩ := by
  unfold compute_price_suggestions_for_item
  simp only
  rw [if_neg (cleanOf_ne_nil (List.cons_ne_nil a rest))]

theorem exclusive_clean_false_total {clean : List ERow}
    (hexf : exclusive_mode_clean clean = false) : 200 < totalQtyE clean := by
  simp only [exclusive_mode_clean] at hexf
  rw [Bool.or_eq_false_iff] at hexf
  have h1 := hexf.1
  rw [decide_eq_false_iff_not] at h1
  exact lt_of_not_le h1

/-- C8 (confirmed): for every nonempty enriched book the suggestion record
satisfies clean_q1_price ≤ fair_price ≤ clean_q3_price, under both the
weighted Normal-regime quantiles and the unweighted Exclusive-regime
quantiles. -/
theorem C8_quartile_ordering (id : ℕ) (rows : List ERow) (hne : rows ≠ []) :
    ∃ s a b c, compute_price_suggestions_for_item id rows = some s ∧
      s.clean_q1_price = some a ∧ s.fair_price = some b ∧ s.clean_q3_price = some c ∧
      a ≤ b ∧ b ≤ c := by
  cases rows with
  | nil => exact absurd rfl hne
  | cons x rest =>
    rw [compute_eq]
    have hcne : cleanOf (x :: rest) ≠ [] := cleanOf_ne_nil (List.cons_ne_nil x rest)
    by_cases hex : exclusive_mode_clean (cleanOf (x :: rest)) = true
    · simp only [if_pos hex]
      have hpne : (cleanOf (x :: rest)).map ERow.price ≠ [] := by simpa using hcne
      obtain ⟨a, b, hqa, hqb, hab⟩ :=
        @npQuantile_mono _ hpne (1 / 4) (1 / 2) (by norm_num) (by norm_num) (by norm_num)
      obtain ⟨b2, c, hqb2, hqc, hbc⟩ :=
        @npQuantile_mono _ hpne (1 / 2) (3 / 4) (by norm_num) (by norm_num) (by norm_num)
      have hbb : b = b2 := Option.some_inj.mp (hqb.symm.trans hqb2)
      refine ⟨_, a, b, c, rfl, hqa, hqb, hqc, hab, ?_⟩
      rw [hbb]
      exact hbc
    · simp only [if_neg hex]
      have hexf : exclusive_mode_clean (cleanOf (x :: rest)) = false := by
        revert hex
        cases exclusive_mode_clean (cleanOf (x :: rest)) <;> simp
      have htgt := exclusive_clean_false_total hexf
      have htot : 0 < sumSnd (pairsOfE (cleanOf (x :: rest))) := by
        rw [sumSnd_pairsOfE]
        linarith
      have hpne : pairsOfE (cleanOf (x :: rest)) ≠ [] := by
        unfold pairsOfE
        simpa using hcne
      obtain ⟨a, ha⟩ :=
        @weighted_quantile_isSome _ hpne (1 / 4) (by norm_num) (by norm_num) htot
      obtain ⟨b, hb⟩ :=
        @weighted_quantile_isSome _ hpne (1 / 2) (by norm_num) (by norm_num) htot
      obtain ⟨c, hc⟩ :=
        @weighted_quantile_isSome _ hpne (3 / 4) (by norm_num) (by norm_num) htot
      have hab := weighted_quantile_mono (by norm_num) (by norm_num) (by norm_num)
        (le_of_lt htot) ha hb
      have hbc := weighted_quantile_mono (by norm_num) (by norm_num) (by norm_num)
        (le_of_lt htot) hb hc
      have hfa : weighted_price_quantile_from_df (cleanOf (x :: rest)) (1 / 4) = some a := by
        unfold weighted_price_quantile_from_df
        rw [if_neg hcne]
        exact ha
      have hfb : weighted_price_quantile_from_df (cleanOf (x :: rest)) (1 / 2) = some b := by
        unfold weighted_price_quantile_from_df
        rw [if_neg hcne]
        exact hb
      have hfc : weighted_price_quantile_from_df (cleanOf (x :: rest)) (3 / 4) = some c := by
        unfold weighted_price_quantile_from_df
        rw [if_neg hcne]
        exact hc
      exact ⟨_, a, b, c, rfl, hfa, hfb, hfc, hab, hbc⟩

/-- C8 (witness): the quartile ordering on a concrete two-row enriched
book. -/
theorem C8_quartile_ordering_witness :
    ∃ s a b c,
      compute_price_suggestions_for_item 2 [⟨10, 1, 0, 1 / 2, false⟩, ⟨20, 1, 0, 1, false⟩] =
        some s ∧
      s.clean_q1_price = some a ∧ s.fair_price = some b ∧ s.clean_q3_price = some c ∧
      a ≤ b ∧ b ≤ c :=
  C8_quartile_ordering 2 [⟨10, 1, 0, 1 / 2, false⟩, ⟨20, 1, 0, 1, false⟩]
    (List.cons_ne_nil _ _)

/-- C10 (confirmed): whenever the clean set is classified Normal, the fair
price and both clean quartiles are exact prices of clean listings (the
weighted quantile never interpolates), whereas on the Exclusive two-listing
book (10, qty 1) and (20, qty 1) the unweighted quartile returns 12.5, which
is not the price of any listing. -/
theorem C10_weighted_no_interp :
    (∀ (id : ℕ) (rows : List ERow), rows ≠ [] →
      exclusive_mode_clean (cleanOf rows) = false →
      ∀ s, compute_price_suggestions_for_item id rows = some s →
        (∃ a, s.clean_q1_price = some a ∧ a ∈ (cleanOf rows).map ERow.price) ∧
        (∃ b, s.fair_price = some b ∧ b ∈ (cleanOf rows).map ERow.price) ∧
        (∃ c, s.clean_q3_price = some c ∧ c ∈ (cleanOf rows).map ERow.price)) ∧
    (compute_price_suggestions_for_item 1 (enrich_item_orders [⟨10, 1⟩, ⟨20, 1⟩]) =
      some ⟨1, 2, 0, some 19, some 15, some (35 / 2), some 15, some (25 / 2),
        some (35 / 2)⟩ ∧
      exclusive_mode_clean (cleanOf (enrich_item_orders [⟨10, 1⟩, ⟨20, 1⟩])) = true ∧
      (25 / 2 : ℚ) ∉ (cleanOf (enrich_item_orders [⟨10, 1⟩, ⟨20, 1⟩])).map ERow.price) := by
  constructor
  · intro id rows hne hexf s hs
    cases rows with
    | nil => exact absurd rfl hne
    | cons x rest =>
      rw [compute_eq] at hs
      have hcne : cleanOf (x :: rest) ≠ [] := cleanOf_ne_nil (List.cons_ne_nil x rest)
      have hex : ¬ exclusive_mode_clean (cleanOf (x :: rest)) = true := by
        rw [hexf]
        simp
      simp only [if_neg hex] at hs
      have hs2 := Option.some_inj.mp hs
      subst hs2
      have htgt := exclusive_clean_false_total hexf
      have htot : 0 < sumSnd (pairsOfE (cleanOf (x :: rest))) := by
        rw [sumSnd_pairsOfE]
        linarith
      have hpne : pairsOfE (cleanOf (x :: rest)) ≠ [] := by
        unfold pairsOfE
        simpa using hcne
      have hmem : ∀ q : ℚ, 0 < q → q < 1 →
          ∃ v, weighted_price_quantile_from_df (cleanOf (x :: rest)) q = some v ∧
            v ∈ (cleanOf (x :: rest)).map ERow.price := by
        intro q h0 h1
        obtain ⟨v, hv⟩ := weighted_quantile_isSome hpne h0 h1 htot
        refine ⟨v, ?_, ?_⟩
        · unfold weighted_price_quantile_from_df
          rw [if_neg hcne]
          exact hv
        · have hv2 := weighted_quantile_mem h0 h1 hv
          rw [map_fst_pairsOfE] at hv2
          exact hv2
      exact ⟨hmem (1 / 4) (by norm_num) (by norm_num),
        hmem (1 / 2) (by norm_num) (by norm_num),
        hmem (3 / 4) (by norm_num) (by norm_num)⟩
  · refine ⟨?_, ?_, ?_⟩
    · with_unfolding_all decide
    · with_unfolding_all decide
    · with_unfolding_all decide

/-- Rows used to witness the Normal-regime membership part of C10: three
clean listings, prices 10, 11, 12, quantity 100 each (total 300, Normal). -/
def c10_witness_rows : List ERow :=
  [⟨10, 100, 0, 1 / 3, false⟩, ⟨11, 100, 0, 2 / 3, false⟩, ⟨12, 100, 0, 1, false⟩]

/-- C10 (witness): the Normal-regime part evaluated on the concrete
three-listing clean book. -/
theorem C10_weighted_no_interp_witness :
    (∃ a, (⟨3, 3, 0, some 9, some 11, some 12, some 11, some 10, some 12⟩ :
        Suggestion).clean_q1_price = some a ∧
      a ∈ (cleanOf c10_witness_rows).map ERow.price) ∧
    (∃ b, (⟨3, 3, 0, some 9, some 11, some 12, some 11, some 10, some 12⟩ :
        Suggestion).fair_price = some b ∧
      b ∈ (cleanOf c10_witness_rows).map ERow.price) ∧
    (∃ c, (⟨3, 3, 0, some 9, some 11, some 12, some 11, some 10, some 12⟩ :
        Suggestion).clean_q3_price = some c ∧
      c ∈ (cleanOf c10_witness_rows).map ERow.price) :=
  C10_weighted_no_interp.1 3 c10_witness_rows (List.cons_ne_nil _ _)
    (by with_unfolding_all decide) _ (by with_unfolding_all decide)

/-- C6 (confirmed): the raw fast-sell level is the 3rd-cheapest clean price
(clamped to the last) under Exclusive, the min(10, count)-th cheapest under
Normal with average quantity per listing ≤ 2, and the price at the first
cumulative-quantity crossing of min(100, total) (falling back to the
maximum clean price) under Normal with average quantity > 2; the final
fast_sell_price is max(floor(raw) - 1, 0), hence never negative. -/
theorem C6_fast_sell (id : ℕ) (rows : List ERow) (hne : rows ≠ []) :
    ∃ s, compute_price_suggestions_for_item id rows = some s ∧
      s.fast_sell_price =
        some (max ((⌊fast_sell_raw (cleanOf rows)⌋ - 1 : ℤ) : ℚ) 0) ∧
      (exclusive_mode_clean (cleanOf rows) = true →
        fast_sell_raw (cleanOf rows) =
          (sortQ ((cleanOf rows).map ERow.price)).getD
            (min 2 ((cleanOf rows).length - 1)) 0) ∧
      (exclusive_mode_clean (cleanOf rows) = false →
        (totalQtyE (cleanOf rows) / ((cleanOf rows).length : ℚ) ≤ 2 →
          fast_sell_raw (cleanOf rows) =
            (sortQ ((cleanOf rows).map ERow.price)).getD
              (min 10 (cleanOf rows).length - 1) 0) ∧
        (¬ totalQtyE (cleanOf rows) / ((cleanOf rows).length : ℚ) ≤ 2 →
          fast_sell_raw (cleanOf rows) =
            (pickCum (min 100 (totalQtyE (cleanOf rows))) 0
                (pairsOfE (sortOn ERow.price (cleanOf rows)))).getD
              ((sortQ ((cleanOf rows).map ERow.price)).getLast?.getD 0))) ∧
      ∀ v, s.fast_sell_price = some v → 0 ≤ v := by
  cases rows with
  | nil => exact absurd rfl hne
  | cons x rest =>
    rw [compute_eq]
    refine ⟨_, rfl, rfl, ?_, ?_, ?_⟩
    · intro hex
      simp only [fast_sell_raw]
      rw [if_pos hex, map_sortOn, sortOn_length]
    · intro hexf
      have hex : ¬ exclusive_mode_clean (cleanOf (x :: rest)) = true := by
        rw [hexf]
        simp
      constructor
      · intro havg
        simp only [fast_sell_raw]
        rw [if_neg hex, if_pos havg, map_sortOn, sortOn_length]
      · intro havg
        simp only [fast_sell_raw]
        rw [if_neg hex, if_neg havg, map_sortOn]
        cases pickCum (min 100 (totalQtyE (cleanOf (x :: rest)))) 0
            (pairsOfE (sortOn ERow.price (cleanOf (x :: rest)))) <;> rfl
    · intro v hv
      rw [← Option.some_inj.mp hv]
      exact le_max_right _ _

/-- C6 (witness): the fast-sell characterization on a one-row clean book
(price 10, quantity 5, Exclusive regime: fast_sell = floor(10) - 1 = 9). -/
theorem C6_fast_sell_witness :
    ∃ s, compute_price_suggestions_for_item 6 [⟨10, 5, 0, 1, false⟩] = some s ∧
      s.fast_sell_price =
        some (max ((⌊fast_sell_raw (cleanOf [⟨10, 5, 0, 1, false⟩])⌋ - 1 : ℤ) : ℚ) 0) ∧
      (exclusive_mode_clean (cleanOf [⟨10, 5, 0, 1, false⟩]) = true →
        fast_sell_raw (cleanOf [⟨10, 5, 0, 1, false⟩]) =
          (sortQ ((cleanOf [⟨10, 5, 0, 1, false⟩]).map ERow.price)).getD
            (min 2 ((cleanOf [⟨10, 5, 0, 1, false⟩]).length - 1)) 0) ∧
      (exclusive_mode_clean (cleanOf [⟨10, 5, 0, 1, false⟩]) = false →
        (totalQtyE (cleanOf [⟨10, 5, 0, 1, false⟩]) /
            ((cleanOf [⟨10, 5, 0, 1, false⟩]).length : ℚ) ≤ 2 →
          fast_sell_raw (cleanOf [⟨10, 5, 0, 1, false⟩]) =
            (sortQ ((cleanOf [⟨10, 5, 0, 1, false⟩]).map ERow.price)).getD
              (min 10 (cleanOf [⟨10, 5, 0, 1, false⟩]).length - 1) 0) ∧
        (¬ totalQtyE (cleanOf [⟨10, 5, 0, 1, false⟩]) /
            ((cleanOf [⟨10, 5, 0, 1, false⟩]).length : ℚ) ≤ 2 →
          fast_sell_raw (cleanOf [⟨10, 5, 0, 1, false⟩]) =
            (pickCum (min 100 (totalQtyE (cleanOf [⟨10, 5, 0, 1, false⟩]))) 0
                (pairsOfE (sortOn ERow.price (cleanOf [⟨10, 5, 0, 1, false⟩])))).getD
              ((sortQ ((cleanOf [⟨10, 5, 0, 1, false⟩]).map ERow.price)).getLast?.getD 0))) ∧
      ∀ v, s.fast_sell_price = some v → 0 ≤ v :=
  C6_fast_sell 6 [⟨10, 5, 0, 1, false⟩] (List.cons_ne_nil _ _)

/-- C3 (counterexample): on the two-listing book (price 1, qty 1),
(price 3, qty 1) — positive integer quantities, positive total — the
expansion MAD is np.median([0, 2]) = 1 (the mean of the two middle
deviations), while the weighted-median-of-deviations rule returns 0 (the
first deviation whose cumulative weight reaches half the total), so the two
formulations disagree on even totals. -/
theorem C3_counterexample :
    price_mad [⟨1, 1⟩, ⟨3, 1⟩] = some 1 ∧
    mad_by_weighted_median_spec (pairsOf [⟨1, 1⟩, ⟨3, 1⟩]) = some 0 ∧
    price_mad [⟨1, 1⟩, ⟨3, 1⟩] ≠ mad_by_weighted_median_spec (pairsOf [⟨1, 1⟩, ⟨3, 1⟩]) := by
  refine ⟨?_, ?_, ?_⟩
  · with_unfolding_all decide
  · with_unfolding_all decide
  · with_unfolding_all decide

theorem mad_spec_eq {l : List (ℚ × ℚ)} {m : ℚ} (h : weighted_median l = some m) :
    mad_by_weighted_median_spec l =
      weighted_median (l.map fun vw => (|vw.1 - m|, vw.2)) := by
  unfold mad_by_weighted_median_spec
  split
  · rename_i heq
    rw [h] at heq
    exact absurd heq (by simp)
  · rename_i m2 heq
    rw [h] at heq
    rw [Option.some_inj.mp heq]

theorem price_mad_eq {book : List Listing} {m : ℚ} (hm : price_median book = some m)
    (hnot : ¬ totalQty book ≤ 0) (hepos : 0 < (expand (pairsOf book)).length) :
    price_mad book = npMedian ((expand (pairsOf book)).map fun p => |p - m|) := by
  unfold price_mad
  split
  · rename_i heq
    rw [hm] at heq
    exact absurd heq (by simp)
  · rename_i m3 heq
    rw [hm] at heq
    rw [(Option.some_inj.mp heq).symm]
    rw [if_neg hnot]
    dsimp only
    rw [if_pos hepos]

/-- C3 (amended): for a nonempty book with positive integer quantities whose
total quantity is odd, the MAD computed by literal expansion (repeat each
price quantity times and take np.median of the absolute deviations from the
weighted median, as the code does) equals the quantity-weighted median of
the deviations computed without expansion.  For even totals the two can
differ, because np.median averages the two middle elements of an
even-length multiset while the weighted rule picks the lower one. -/
theorem C3_mad_equivalence {book : List Listing} (hne : book ≠ [])
    (hint : ∀ x ∈ book, ∃ n : ℕ, 0 < n ∧ x.quantity = (n : ℚ))
    {m2 : ℕ} (hodd : totalQty book = ((2 * m2 + 1 : ℕ) : ℚ)) :
    price_mad book = mad_by_weighted_median_spec (pairsOf book) := by
  have hint2 : ∀ vw ∈ pairsOf book, ∃ n : ℕ, 0 < n ∧ vw.2 = (n : ℚ) := by
    intro vw hvw
    obtain ⟨x, hx, hxe⟩ := List.mem_map.mp hvw
    obtain ⟨n, hn, hq⟩ := hint x hx
    exact ⟨n, hn, by rw [← hxe]; exact hq⟩
  have htpos : 0 < totalQty book := by
    rw [hodd]
    exact_mod_cast Nat.succ_pos (2 * m2)
  have hnot : ¬ totalQty book ≤ 0 := not_le.mpr htpos
  have hpne : pairsOf book ≠ [] := by
    unfold pairsOf
    simpa using hne
  obtain ⟨wm, hwm⟩ : ∃ v, weighted_median (pairsOf book) = some v := by
    unfold weighted_median
    apply pickCum_isSome _ _ 0 (sortOn_ne_nil Prod.fst hpne)
    rw [sumSnd_perm (sortOn_perm Prod.fst (pairsOf book)), sumSnd_pairsOf]
    linarith
  have hpm : price_median book = some wm := by
    unfold price_median
    rw [if_neg hnot]
    exact hwm
  have hint3 : ∀ vw ∈ (pairsOf book).map (fun vw => (|vw.1 - wm|, vw.2)),
      ∃ n : ℕ, 0 < n ∧ vw.2 = (n : ℚ) := by
    intro vw hvw
    obtain ⟨y, hy, hye⟩ := List.mem_map.mp hvw
    obtain ⟨n, hn, hq⟩ := hint2 y hy
    exact ⟨n, hn, by rw [← hye]; exact hq⟩
  have hint4 : ∀ vw ∈ sortPairs ((pairsOf book).map (fun vw => (|vw.1 - wm|, vw.2))),
      ∃ n : ℕ, 0 < n ∧ vw.2 = (n : ℚ) :=
    fun vw hvw => hint3 vw ((sortOn_perm Prod.fst _).mem_iff.mp hvw)
  have hsumdev : sumSnd ((pairsOf book).map (fun vw => (|vw.1 - wm|, vw.2))) =
      totalQty book := by
    have h2 := sumSnd_map_value (fun p => |p - wm|) (pairsOf book)
    simpa [sumSnd_pairsOf] using h2
  have hElen :
      (expand (sortPairs ((pairsOf book).map (fun vw => (|vw.1 - wm|, vw.2))))).length =
        2 * m2 + 1 := by
    have h1 := expand_length_int hint4
    rw [sumSnd_sortPairs, hsumdev, hodd] at h1
    exact_mod_cast h1
  have hrhs : mad_by_weighted_median_spec (pairsOf book) =
      some ((expand (sortPairs ((pairsOf book).map
        (fun vw => (|vw.1 - wm|, vw.2))))).getD m2 0) := by
    rw [mad_spec_eq hwm]
    unfold weighted_median
    have hthr : sumSnd ((pairsOf book).map (fun vw => (|vw.1 - wm|, vw.2))) / 2 =
        0 + (m2 : ℚ) + 1 / 2 := by
      rw [hsumdev, hodd]
      push_cast
      ring
    rw [hthr]
    exact pickCum_expand _ hint4 m2 (by omega) 0
  have hepos : 0 < (expand (pairsOf book)).length := by
    by_contra hc
    push_neg at hc
    have hz : (expand (pairsOf book)).length = 0 := Nat.le_zero.mp hc
    have helen : ((expand (pairsOf book)).length : ℚ) = totalQty book := by
      rw [expand_length_int hint2, sumSnd_pairsOf]
    rw [hz] at helen
    simp only [Nat.cast_zero] at helen
    linarith
  have hlhs : price_mad book =
      some ((expand (sortPairs ((pairsOf book).map
        (fun vw => (|vw.1 - wm|, vw.2))))).getD m2 0) := by
    rw [price_mad_eq hpm hnot hepos]
    have hm1 : (expand (pairsOf book)).map (fun p => |p - wm|) =
        expand ((pairsOf book).map (fun vw => (|vw.1 - wm|, vw.2))) :=
      (expand_map (fun p => |p - wm|) (pairsOf book)).symm
    rw [hm1]
    rw [npMedian_congr_perm (expand_perm
      (show List.Perm ((pairsOf book).map (fun vw => (|vw.1 - wm|, vw.2)))
          (sortPairs ((pairsOf book).map (fun vw => (|vw.1 - wm|, vw.2)))) from
        (sortOn_perm Prod.fst _).symm))]
    unfold npMedian
    have hEne : expand (sortPairs ((pairsOf book).map
        (fun vw => (|vw.1 - wm|, vw.2)))) ≠ [] := by
      intro hx
      rw [hx] at hElen
      simp at hElen
    rw [if_neg hEne]
    have hsortQ : sortQ (expand (sortPairs
        ((pairsOf book).map (fun vw => (|vw.1 - wm|, vw.2))))) =
        expand (sortPairs ((pairsOf book).map (fun vw => (|vw.1 - wm|, vw.2)))) :=
      sortQ_eq_of_sorted (expand_sorted (sortOn_sorted Prod.fst _))
    rw [hsortQ]
    rw [hElen]
    have hmod : (2 * m2 + 1) % 2 = 1 := by omega
    rw [if_pos hmod]
    have hdiv : (2 * m2 + 1) / 2 = m2 := by omega
    rw [hdiv]
  rw [hlhs, hrhs]

/-- C3 (witness): the amended equivalence evaluated on the book with prices
2, 5, 9 and quantities 1, 3, 1 (total 5, odd): both MAD formulations give
the same value. -/
theorem C3_mad_equivalence_witness :
    ([⟨2, 1⟩, ⟨5, 3⟩, ⟨9, 1⟩] : List Listing) ≠ [] ∧
    totalQty [⟨2, 1⟩, ⟨5, 3⟩, ⟨9, 1⟩] = ((2 * 2 + 1 : ℕ) : ℚ) ∧
    price_mad [⟨2, 1⟩, ⟨5, 3⟩, ⟨9, 1⟩] =
      mad_by_weighted_median_spec (pairsOf [⟨2, 1⟩, ⟨5, 3⟩, ⟨9, 1⟩]) := by
  have hq : ∀ x ∈ ([⟨2, 1⟩, ⟨5, 3⟩, ⟨9, 1⟩] : List Listing),
      ∃ n : ℕ, 0 < n ∧ x.quantity = (n : ℚ) := by
    intro x hx
    rcases List.mem_cons.mp hx with he | hx2
    · exact ⟨1, Nat.one_pos, by rw [he]; norm_num⟩
    · rcases List.mem_cons.mp hx2 with he | hx3
      · exact ⟨3, by norm_num, by rw [he]; norm_num⟩
      · rcases List.mem_cons.mp hx3 with he | hx4
        · exact ⟨1, Nat.one_pos, by rw [he]; norm_num⟩
        · simp at hx4
  have hodd : totalQty [⟨2, 1⟩, ⟨5, 3⟩, ⟨9, 1⟩] = ((2 * 2 + 1 : ℕ) : ℚ) := by
    with_unfolding_all decide
  exact ⟨List.cons_ne_nil _ _, hodd,
    C3_mad_equivalence (List.cons_ne_nil _ _) hq hodd⟩

end TMA
